import Mathlib

/-!
Verification development for `advance_code_search` (`src/main.cpp`).

A shallow embedding of the indexing and query engine of `src/main.cpp`.

Modelling conventions.

* `std::string` is `Str = List Char`.  The C character functions `isspace`,
  `isalnum`, `tolower` are taken in the "C" locale; characters outside ASCII
  are neither spaces nor alphanumeric.
* `int` is `Int` (no document id or counter comes near `2^31` in a run).
* `std::map` is a key-sorted association list.  The program observes its maps
  only through `find`, `operator[]`, `size()` and iteration that copies keys
  into a `std::set`; the functions below are defined on every list.
* `std::set<int>` is a strictly increasing `List Int`.
* The file system is a parameter `fs : Str → Option Str` giving the raw text
  of a path, `none` when the file cannot be opened.
* `double` is `Double S`: a value of an exact linearly ordered field `S`, or
  one of the IEEE special values (infinities, NaN) that a division by zero
  produces, with a logarithm `ln : S → S` on the positive values.  Rounding
  and overflow are not modelled.  Instantiating `S := ℝ`, `ln := Real.log`
  gives the reading "exact real arithmetic", `S := ℚ` an executable one.
* `documents[docID]` with `docID` out of range is undefined behaviour in C++;
  `search` returns `none` there.
-/

namespace CodeSearch

/-- Model of `std::string`. -/
abbrev Str := List Char

/-! ## Containers -/

/-- Lexicographic `operator<` of `std::string`, the key order of the outer map. -/
def strLess : Str → Str → Bool
  | [], [] => false
  | [], _ :: _ => true
  | _ :: _, [] => false
  | a :: as, b :: bs =>
    if a.toNat < b.toNat then true
    else if b.toNat < a.toNat then false
    else strLess as bs

/-- Key order of `std::map<int, int>` and `std::set<int>`. -/
def intLess (a b : Int) : Bool := decide (a < b)

/-- Model of `std::map::find`: the value stored under `k`, if any. -/
def mapFind {K V : Type} [DecidableEq K] : List (K × V) → K → Option V
  | [], _ => none
  | (k1, v) :: rest, k => if k1 = k then some v else mapFind rest k

/-- Insertion of a key that is not yet present, at its place in key order. -/
def mapInsertNew {K V : Type} (less : K → K → Bool) (k : K) (v : V) :
    List (K × V) → List (K × V)
  | [] => [(k, v)]
  | (k1, v1) :: rest =>
    if less k k1 then (k, v) :: (k1, v1) :: rest
    else (k1, v1) :: mapInsertNew less k v rest

/-- Write through a reference to the value stored under an existing key `k`. -/
def mapAssign {K V : Type} [DecidableEq K] (k : K) (v : V) :
    List (K × V) → List (K × V)
  | [] => []
  | (k1, v1) :: rest =>
    if k1 = k then (k1, v) :: rest else (k1, v1) :: mapAssign k v rest

/-- A posting list `map<int, int>`: docID -> freq. -/
abbrev Posting := List (Int × Int)

/-- The inverted index `map<string, map<int, int>>`: word -> (docID -> freq). -/
abbrev InvertedIndex := List (Str × Posting)

/-- Model of `operator[]` on `map<int, int>`: the value read and the map after
the access; a key that is absent is inserted with the value `0`. -/
def postingIndex (p : Posting) (docID : Int) : Int × Posting :=
  match mapFind p docID with
  | some v => (v, p)
  | none => (0, mapInsertNew intLess docID 0 p)

/-- Model of `std::set<int>::insert`. -/
def setInsert (x : Int) : List Int → List Int
  | [] => [x]
  | y :: rest =>
    if x < y then x :: y :: rest
    else if x = y then y :: rest
    else y :: setInsert x rest

/-- The loop `for (auto &p : it->second) s.insert(p.first)`. -/
def insertKeys (p : Posting) (s : List Int) : List Int :=
  p.foldl (fun acc e => setInsert e.1 acc) s

/-- Model of `std::set_intersection` on two `std::set<int>` ranges, collected
into a fresh set: the elements of the first range that occur in the second. -/
def setIntersection (a b : List Int) : List Int :=
  a.filter (fun x => decide (x ∈ b))

/-! ## Characters and tokens -/

/-- The C function `isspace` ("C" locale): space, \t, \n, \v, \f, \r. -/
def isspace (c : Char) : Bool :=
  c.toNat = 32 || (9 ≤ c.toNat && c.toNat ≤ 13)

/-- The C function `isalnum` ("C" locale). -/
def isalnum (c : Char) : Bool :=
  (48 ≤ c.toNat && c.toNat ≤ 57) || (65 ≤ c.toNat && c.toNat ≤ 90) ||
    (97 ≤ c.toNat && c.toNat ≤ 122)

/-- The C function `tolower` ("C" locale). -/
def tolower (c : Char) : Char :=
  if 65 ≤ c.toNat ∧ c.toNat ≤ 90 then Char.ofNat (c.toNat + 32) else c

/-- Scanner behind `while (stream >> word)`: `cur` is the word being read. -/
def extractFrom : Str → Str → List Str
  | cur, [] => if cur = [] then [] else [cur]
  | cur, c :: rest =>
    if isspace c then
      (if cur = [] then extractFrom [] rest else cur :: extractFrom [] rest)
    else extractFrom (cur ++ [c]) rest

/-- The words delivered by `while (stream >> word)` over the text `s`. -/
def extractWords (s : Str) : List Str := extractFrom [] s

/-- Model of `Indexer::clean`. -/
def clean (word : Str) : Str :=
  word.foldl (fun result c =>
    if isalnum c || c = '_' then result ++ [tolower c] else result) []

/-! ## Parsers -/

/-- The two concrete parser classes. -/
inductive FileParser where
  | TxtParser
  | CodeParser
  deriving DecidableEq, Repr

/-- Model of `TxtParser::parse`. -/
def TxtParser.parse (fs : Str → Option Str) (filepath : Str) : Str :=
  match fs filepath with
  | none => []
  | some text =>
    (extractWords text).foldl (fun content word =>
      let cleanWord := word.foldl (fun cw c =>
        if isalnum c || c = '_' then cw ++ [tolower c] else cw) []
      if cleanWord ≠ [] then content ++ (cleanWord ++ [' ']) else content) []

/-- Model of `CodeParser::parse`. -/
def CodeParser.parse (fs : Str → Option Str) (filepath : Str) : Str :=
  TxtParser.parse fs filepath

/-- Virtual dispatch of `parser->parse(filepath)`. -/
def FileParser.parse (fs : Str → Option Str) : FileParser → Str → Str
  | .TxtParser, filepath => TxtParser.parse fs filepath
  | .CodeParser, filepath => CodeParser.parse fs filepath

/-- Model of `filename.substr(filename.size() - n)`. -/
def suffixOf (filename : Str) (n : Nat) : Str :=
  filename.drop (filename.length - n)

/-- Model of the factory `getParser`; `none` is `nullptr`. -/
def getParser (filename : Str) : Option FileParser :=
  let r4 : Option FileParser :=
    if filename.length ≥ 4 then
      let ext := suffixOf filename 4
      if ext = ".txt".toList then some .TxtParser
      else if ext = ".cpp".toList ∨ ext = ".h".toList then some .CodeParser
      else none
    else none
  let r3 : Option FileParser :=
    if filename.length ≥ 3 then
      let ext := suffixOf filename 3
      if ext = ".py".toList ∨ ext = ".js".toList then some .CodeParser else none
    else none
  let r5 : Option FileParser :=
    if filename.length ≥ 5 then
      let ext := suffixOf filename 5
      if ext = ".java".toList ∨ ext = ".cs".toList then some .CodeParser else none
    else none
  match r4 with
  | some p => some p
  | none =>
    match r3 with
    | some p => some p
    | none => r5

/-! ## Indexer -/

/-- Model of `struct Document`. -/
structure Document where
  id : Int
  filename : Str
  content : Str
  totalWords : Int
  deriving DecidableEq, Repr

/-- The state of `class Indexer`. -/
structure Indexer where
  invertedIndex : InvertedIndex
  documents : List Document
  deriving DecidableEq, Repr

/-- A freshly constructed `Indexer`. -/
def Indexer.empty : Indexer := ⟨[], []⟩

/-- The statement `invertedIndex[word][id]++`. -/
def recordWord (inv : InvertedIndex) (word : Str) (id : Int) : InvertedIndex :=
  let inv1 :=
    match mapFind inv word with
    | some _ => inv
    | none => mapInsertNew strLess word [] inv
  let posting := (mapFind inv1 word).getD []
  let r := postingIndex posting id
  mapAssign word (mapAssign id (r.1 + 1) r.2) inv1

/-- The loop `while (ss >> word)` of `addDocument`, over the remaining words. -/
def recordWords (id : Int) : List Str → InvertedIndex × Int → InvertedIndex × Int
  | [], st => st
  | word :: rest, st => recordWords id rest (recordWord st.1 word id, st.2 + 1)

/-- Model of `Indexer::addDocument`. -/
def addDocument (fs : Str → Option Str) (indexer : Indexer) (filepath : Str)
    (id : Int) : Indexer :=
  match getParser filepath with
  | none => indexer
  | some parser =>
    let content := parser.parse fs filepath
    let r := recordWords id (extractWords content) (indexer.invertedIndex, 0)
    { invertedIndex := r.1
      documents := indexer.documents ++ [⟨id, filepath, content, r.2⟩] }

/-- The loop `for (i = 0; i < files.size(); ++i) addDocument(files[i], i)` of
`main`, from position `i` on. -/
def ingestFrom (fs : Str → Option Str) : Nat → List Str → Indexer → Indexer
  | _, [], indexer => indexer
  | i, f :: rest, indexer =>
    ingestFrom fs (i + 1) rest (addDocument fs indexer f (i : Int))

/-- The index `main` builds from the scanned list `files`. -/
def ingest (fs : Str → Option Str) (files : List Str) : Indexer :=
  ingestFrom fs 0 files Indexer.empty

/-! ## Query engine -/

/-- Model of `double`: an exact value of the ordered field `S`, or one of the
IEEE special values.  The sign of zero is not modelled: every divisor in the
program is a converted `int` or `size_t`, whose zero is `+0.0`. -/
inductive Double (S : Type) where
  | real (x : S)
  | posInf
  | negInf
  | nan

/-- Conversion `(double) i` of an `int`. -/
def Double.ofInt {S : Type} [LinearOrderedField S] (i : Int) : Double S :=
  Double.real (i : S)

/-- Conversion `(double) n` of a `size_t`. -/
def Double.ofNat {S : Type} [LinearOrderedField S] (n : Nat) : Double S :=
  Double.real (n : S)

/-- IEEE division `a / b`. -/
def Double.div {S : Type} [LinearOrderedField S] : Double S → Double S → Double S
  | .nan, _ => .nan
  | _, .nan => .nan
  | .real x, .real y =>
    if y = 0 then (if 0 < x then .posInf else if x < 0 then .negInf else .nan)
    else .real (x / y)
  | .real _, .posInf => .real 0
  | .real _, .negInf => .real 0
  | .posInf, .real y => if 0 ≤ y then .posInf else .negInf
  | .negInf, .real y => if 0 ≤ y then .negInf else .posInf
  | .posInf, .posInf => .nan
  | .posInf, .negInf => .nan
  | .negInf, .posInf => .nan
  | .negInf, .negInf => .nan

/-- IEEE multiplication `a * b`. -/
def Double.mul {S : Type} [LinearOrderedField S] : Double S → Double S → Double S
  | .nan, _ => .nan
  | _, .nan => .nan
  | .real x, .real y => .real (x * y)
  | .real x, .posInf => if 0 < x then .posInf else if x < 0 then .negInf else .nan
  | .real x, .negInf => if 0 < x then .negInf else if x < 0 then .posInf else .nan
  | .posInf, .real y => if 0 < y then .posInf else if y < 0 then .negInf else .nan
  | .negInf, .real y => if 0 < y then .negInf else if y < 0 then .posInf else .nan
  | .posInf, .posInf => .posInf
  | .posInf, .negInf => .negInf
  | .negInf, .posInf => .negInf
  | .negInf, .negInf => .posInf

/-- IEEE addition `a + b`. -/
def Double.add {S : Type} [LinearOrderedField S] : Double S → Double S → Double S
  | .nan, _ => .nan
  | _, .nan => .nan
  | .real x, .real y => .real (x + y)
  | .real _, .posInf => .posInf
  | .real _, .negInf => .negInf
  | .posInf, .real _ => .posInf
  | .negInf, .real _ => .negInf
  | .posInf, .posInf => .posInf
  | .negInf, .negInf => .negInf
  | .posInf, .negInf => .nan
  | .negInf, .posInf => .nan

/-- The C function `log` on a `double`. -/
def Double.log {S : Type} [LinearOrderedField S] (ln : S → S) : Double S → Double S
  | .real x => if 0 < x then .real (ln x) else if x = 0 then .negInf else .nan
  | .posInf => .posInf
  | .negInf => .nan
  | .nan => .nan

/-- The comparison `a > b` of two `double`s; false when either is NaN. -/
def Double.gt {S : Type} [LinearOrderedField S] : Double S → Double S → Bool
  | .real x, .real y => decide (x > y)
  | .real _, .negInf => true
  | .posInf, .real _ => true
  | .posInf, .negInf => true
  | _, _ => false

/-- The comparison `a >= b` of two `double`s; false when either is NaN. -/
def Double.ge {S : Type} [LinearOrderedField S] : Double S → Double S → Bool
  | .nan, _ => false
  | _, .nan => false
  | .real x, .real y => decide (x ≥ y)
  | .real _, .posInf => false
  | .real _, .negInf => true
  | .posInf, _ => true
  | .negInf, .negInf => true
  | .negInf, _ => false

/-- The summand of the score,
`((double)count / totalWords) * log((double)N / df)`. -/
def tfidfTerm {S : Type} [LinearOrderedField S] (ln : S → S) (count totalWords : Int)
    (n : Nat) (df : Int) : Double S :=
  Double.mul (Double.div (Double.ofInt count) (Double.ofInt totalWords))
    (Double.log ln (Double.div (Double.ofNat n) (Double.ofInt df)))

/-- Model of `QueryEngine::Result`. -/
structure Result (S : Type) where
  docID : Int
  frequency : Int
  tfidf : Double S

/-- Model of `QueryEngine::splitWords`. -/
def splitWords (query : Str) : List Str :=
  (extractWords query).foldl (fun words word => words ++ [clean word]) []

/-- The locals `isAND`, `isOR`, `filteredWords` of `search`. -/
structure QueryFlags where
  isAND : Bool
  isOR : Bool
  filteredWords : List Str
  deriving DecidableEq, Repr

/-- The loop `for (string w : words)` that extracts the operators. -/
def classify (words : List Str) : QueryFlags :=
  words.foldl (fun st w =>
    if w = "and".toList then { st with isAND := true }
    else if w = "or".toList then { st with isOR := true }
    else { st with filteredWords := st.filteredWords ++ [w] }) ⟨false, false, []⟩

/-- The document ids of the posting list of `w`, as a fresh `set<int>`
(empty when `find` fails). -/
def docsOf (inv : InvertedIndex) (w : Str) : List Int :=
  match mapFind inv w with
  | some p => insertKeys p []
  | none => []

/-- The computation of `candidateDocs` in `search`. -/
def candidateDocs (inv : InvertedIndex) (isAND : Bool) (filteredWords : List Str) :
    List Int :=
  match filteredWords with
  | [] => []
  | w0 :: rest =>
    if isAND then
      rest.foldl (fun cand w => setIntersection cand (docsOf inv w)) (docsOf inv w0)
    else
      filteredWords.foldl (fun cand w =>
        match mapFind inv w with
        | some p => insertKeys p cand
        | none => cand) []

/-- The loop computing `freqSum` for one `docID`; the index is threaded through
because `it->second[docID]` is `operator[]`. -/
def freqLoop (docID : Int) : List Str → Int × InvertedIndex → Int × InvertedIndex
  | [], st => st
  | w :: rest, st =>
    match mapFind st.2 w with
    | some p =>
      let r := postingIndex p docID
      freqLoop docID rest (st.1 + r.1, mapAssign w r.2 st.2)
    | none => freqLoop docID rest st

/-- Model of `indexer.documents[docID]`; `none` when out of range. -/
def docAt (documents : List Document) (docID : Int) : Option Document :=
  if 0 ≤ docID then documents.get? docID.toNat else none

/-- The loop computing `tfidf` for one `docID`.  Only `df > 0` is guarded:
`totalWords = 0` makes the summand an infinity or NaN. -/
def tfidfLoop {S : Type} [LinearOrderedField S] (ln : S → S)
    (documents : List Document) (docID : Int) :
    List Str → Double S × InvertedIndex → Option (Double S × InvertedIndex)
  | [], st => some st
  | w :: rest, st =>
    match mapFind st.2 w with
    | some p =>
      let df : Int := (p.length : Int)
      if df > 0 then
        let r := postingIndex p docID
        match docAt documents docID with
        | none => none
        | some doc =>
          tfidfLoop ln documents docID rest
            (Double.add st.1 (tfidfTerm ln r.1 doc.totalWords documents.length df),
              mapAssign w r.2 st.2)
      else tfidfLoop ln documents docID rest st
    | none => tfidfLoop ln documents docID rest st

/-- The loop `for (int docID : candidateDocs)` of `search`. -/
def scoreLoop {S : Type} [LinearOrderedField S] (ln : S → S)
    (documents : List Document) (filteredWords : List Str) :
    List Int → List (Result S) × InvertedIndex → Option (List (Result S) × InvertedIndex)
  | [], st => some st
  | docID :: rest, st =>
    let f := freqLoop docID filteredWords (0, st.2)
    match tfidfLoop ln documents docID filteredWords (Double.real 0, f.2) with
    | none => none
    | some t =>
      scoreLoop ln documents filteredWords rest (st.1 ++ [⟨docID, f.1, t.1⟩], t.2)

/-- One insertion step of the sort: `a` goes before the first element that
does not come before it under `comp`. -/
def sortInsert {α : Type} (comp : α → α → Bool) (a : α) : List α → List α
  | [] => [a]
  | b :: rest => if comp b a then b :: sortInsert comp a rest else a :: b :: rest

/-- Model of `std::sort(first, last, comp)` by insertion.  `std::sort`
promises only a permutation ordered by `comp`; the order among results that
`comp` does not separate (equal scores, or a NaN score, which compares false
with everything) is the one this model happens to produce. -/
def stdSort {α : Type} (comp : α → α → Bool) : List α → List α
  | [] => []
  | a :: rest => sortInsert comp a (stdSort comp rest)

/-- Model of `QueryEngine::search`: the returned vector and the state of the
indexer after the call; `none` when `documents[docID]` is out of range. -/
def search {S : Type} [LinearOrderedField S] (ln : S → S) (indexer : Indexer)
    (query : Str) : Option (List (Result S) × Indexer) :=
  let words := splitWords query
  let q := classify words
  let cand := candidateDocs indexer.invertedIndex q.isAND q.filteredWords
  match scoreLoop ln indexer.documents q.filteredWords cand ([], indexer.invertedIndex) with
  | none => none
  | some st =>
    some (stdSort (fun a b => Double.gt a.tfidf b.tfidf) st.1,
      { indexer with invertedIndex := st.2 })

/-! ## Worked example of the specification -/

/-- The two-document corpus of the specification scenarios. -/
def demoFs (path : Str) : Option Str :=
  if path = "d0.txt".toList then some "the quick fox".toList
  else if path = "d1.txt".toList then some "the slow fox fox".toList
  else none

/-- The scanned file list of the scenarios. -/
def demoFiles : List Str := ["d0.txt".toList, "d1.txt".toList]

/-- The index after ingestion of the scenario corpus. -/
def demoIndex : Indexer := ingest demoFs demoFiles

/-! ## Vocabulary of the specification -/

/-- The document ids present in the posting list of `t`; a term absent from
the index has none. -/
def postingIds (inv : InvertedIndex) (t : Str) : List Int :=
  ((mapFind inv t).getD []).map Prod.fst

/-- The entry stored in the index for `(t, d)`, if there is one. -/
def lookupEntry (inv : InvertedIndex) (t : Str) (d : Int) : Option Int :=
  match mapFind inv t with
  | some p => mapFind p d
  | none => none

/-- The occurrence count recorded in the index for `(t, d)`; `0` where there
is no entry. -/
def recordedCount (inv : InvertedIndex) (t : Str) (d : Int) : Int :=
  (lookupEntry inv t d).getD 0

/-- The normalized term sequence of a stored document: the words that
`addDocument` reads back from its content. -/
def docTerms (doc : Document) : List Str := extractWords doc.content

/-- The number of times `t` occurs in the normalized content of `doc`. -/
def occurrenceCount (t : Str) (doc : Document) : Int :=
  ((docTerms doc).count t : Nat)

/-- The term list `filteredWords` that `search` derives from a raw query. -/
def queryTerms (query : Str) : List Str :=
  (classify (splitWords query)).filteredWords

/-- The flag `isAND` that `search` derives from a raw query. -/
def queryIsAND (query : Str) : Bool :=
  (classify (splitWords query)).isAND

/-- Every document id stored in a posting list is a valid position of the
document vector, so that `documents[docID]` is defined. -/
def InBounds (indexer : Indexer) : Prop :=
  ∀ e ∈ indexer.invertedIndex, ∀ x ∈ e.2, (docAt indexer.documents x.1).isSome

instance (indexer : Indexer) : Decidable (InBounds indexer) := by
  unfold InBounds; infer_instance

/-- The list `files` of `main` holds only paths that `getParser` accepts
(`listFilesRecursive` pushes no other path). -/
def AllSupported (files : List Str) : Prop :=
  ∀ f ∈ files, (getParser f).isSome

instance (files : List Str) : Decidable (AllSupported files) := by
  unfold AllSupported; infer_instance

/-- State of an index on which no search has run yet: the entry stored for
`(t, d)` is the number of occurrences of `t` in the document at position `d`
(no entry when `t` does not occur there or `d` is no position), the document
at position `d` has id `d`, and `totalWords` counts its terms. -/
def Fresh (indexer : Indexer) : Prop :=
  (∀ (w : Str) (d : Int),
    lookupEntry indexer.invertedIndex w d =
      match docAt indexer.documents d with
      | some doc => if 0 < occurrenceCount w doc then some (occurrenceCount w doc) else none
      | none => none) ∧
  (∀ (d : Int) (doc : Document), docAt indexer.documents d = some doc → doc.id = d) ∧
  ∀ doc ∈ indexer.documents, doc.totalWords = ((docTerms doc).length : Nat)

/-- Document frequency in the words of the specification: the number of
stored documents that contain `t` at least once. -/
def documentFrequency (documents : List Document) (t : Str) : Nat :=
  (documents.filter (fun doc => decide (t ∈ docTerms doc))).length

/-- The score the specification prescribes for `doc`: the sum over the term
list of `(occurrenceCount / totalTermCount) * ln (N / df)`, a term with
`df = 0` contributing `0`. -/
def specScore {S : Type} [LinearOrderedField S] (ln : S → S) (documents : List Document)
    (terms : List Str) (doc : Document) : S :=
  (terms.map (fun t =>
    if documentFrequency documents t = 0 then 0
    else ((occurrenceCount t doc : Int) : S) / (doc.totalWords : S) *
      ln (((documents.length : Nat) : S) / ((documentFrequency documents t : Nat) : S)))).sum

/-- The term sequence that ingestion derives from a file whose raw text is
`text`: `TxtParser::parse` followed by the split of `addDocument`. -/
def ingestTerms (text : Str) : List Str :=
  extractWords (TxtParser.parse (fun _ => some text) [])

/-- The index after the query "quick slow" has run on the scenario corpus:
"quick" and "slow" have each gained a zero-count entry. -/
def demoIndexAfter : Indexer :=
  ⟨[("fox".toList, [(0, 1), (1, 2)]), ("quick".toList, [(0, 1), (1, 0)]),
      ("slow".toList, [(0, 0), (1, 1)]), ("the".toList, [(0, 1), (1, 1)])],
    demoIndex.documents⟩

/-- The file branch of `listFilesRecursive`: a path is pushed onto `files`
exactly when `getParser` yields a parser for it. -/
def listFile (fullPath : Str) (files : List Str) : List Str :=
  match getParser fullPath with
  | some _ => files ++ [fullPath]
  | none => files

/-- A lowercase letter, a digit or an underscore. -/
def isTermChar (c : Char) : Bool :=
  (97 ≤ c.toNat && c.toNat ≤ 122) || (48 ≤ c.toNat && c.toNat ≤ 57) || c = '_'

/-- Every posting list of the index is non-empty, lists each document id at
most once, and holds only ids that satisfy `good`. -/
def EntriesOK (good : Int → Prop) (inv : InvertedIndex) : Prop :=
  ∀ e ∈ inv, e.2 ≠ [] ∧ (e.2.map Prod.fst).Nodup ∧ ∀ x ∈ e.2, good x.1

/-- Every id stored in a posting list is the position of a stored document
that carries this id and has at least one term. -/
def Sound (indexer : Indexer) : Prop :=
  EntriesOK (fun d => ∃ doc, docAt indexer.documents d = some doc ∧ doc.id = d ∧
    1 ≤ doc.totalWords) indexer.invertedIndex

/-- A run of `QueryEngine::search` calls, one per query, each on the indexer
the previous one left; the indexer after the last call. -/
def searchAll {S : Type} [LinearOrderedField S] (ln : S → S) :
    List Str → Indexer → Option Indexer
  | [], indexer => some indexer
  | query :: rest, indexer =>
    match search ln indexer query with
    | none => none
    | some r => searchAll ln rest r.2

/-- One call `addDocument(filepath, id)`, with the file system as it is at
the time of the call. -/
structure AddCall where
  fs : Str → Option Str
  filepath : Str
  id : Int

/-- A sequence of `addDocument` calls, run from the indexer `indexer`. -/
def runAdds : List AddCall → Indexer → Indexer
  | [], indexer => indexer
  | c :: rest, indexer => runAdds rest (addDocument c.fs indexer c.filepath c.id)

/-- The sum, over all terms of the inverted index, of the occurrence count
recorded for the term and the document id `d`. -/
def termCountSum (inv : InvertedIndex) (d : Int) : Int :=
  (inv.map (fun e => recordedCount inv e.1 d)).sum

/-- The sum, over all entries of the inverted index, of the count that the
entry's own posting list stores for `d`. -/
def entryCountSum (inv : InvertedIndex) (d : Int) : Int :=
  (inv.map (fun e => (mapFind e.2 d).getD 0)).sum

/-- An index reached by three `addDocument` calls with pairwise distinct ids
that are not the positions: the unreadable "missing.txt" under id 1, then
the scenario documents under the ids 0 and 2.  Position 0 of the document
vector holds the empty document. -/
def shiftedIndex : Indexer :=
  runAdds [⟨demoFs, "missing.txt".toList, 1⟩, ⟨demoFs, "d0.txt".toList, 0⟩,
    ⟨demoFs, "d1.txt".toList, 2⟩] Indexer.empty

/-! # Theorems -/

/-! ## Lemmas on the containers -/

section MapLemmas
variable {K V : Type} [DecidableEq K]

theorem mapFind_insertNew_self (less : K → K → Bool) (k : K) (v : V) :
    ∀ m : List (K × V), mapFind m k = none → mapFind (mapInsertNew less k v m) k = some v := by
  intro m
  induction m with
  | nil => intro _; simp [mapInsertNew, mapFind]
  | cons e rest ih =>
    obtain ⟨k1, v1⟩ := e
    intro h
    simp only [mapFind] at h
    by_cases hk : k1 = k
    · simp [hk] at h
    · simp only [hk, if_false] at h
      simp only [mapInsertNew]
      by_cases hl : less k k1 = true
      · simp [hl, mapFind]
      · simp [hl, mapFind, hk, ih h]

theorem mapFind_insertNew_ne (less : K → K → Bool) (k k2 : K) (v : V) (hne : k2 ≠ k) :
    ∀ m : List (K × V), mapFind (mapInsertNew less k v m) k2 = mapFind m k2 := by
  intro m
  induction m with
  | nil => simp [mapInsertNew, mapFind, Ne.symm hne]
  | cons e rest ih =>
    obtain ⟨k1, v1⟩ := e
    simp only [mapInsertNew]
    by_cases hl : less k k1 = true
    · simp [hl, mapFind, Ne.symm hne]
    · simp [hl, mapFind, ih]

theorem mapFind_assign_self (k : K) (v : V) :
    ∀ m : List (K × V), (mapFind m k).isSome → mapFind (mapAssign k v m) k = some v := by
  intro m
  induction m with
  | nil => simp [mapFind]
  | cons e rest ih =>
    obtain ⟨k1, v1⟩ := e
    intro h
    by_cases hk : k1 = k
    · simp [mapAssign, mapFind, hk]
    · simp only [mapFind, hk, if_false] at h
      simp [mapAssign, mapFind, hk, ih h]

theorem mapFind_assign_ne (k k2 : K) (v : V) (hne : k2 ≠ k) :
    ∀ m : List (K × V), mapFind (mapAssign k v m) k2 = mapFind m k2 := by
  intro m
  induction m with
  | nil => simp [mapAssign]
  | cons e rest ih =>
    obtain ⟨k1, v1⟩ := e
    by_cases hk : k1 = k
    · subst hk
      simp [mapAssign, mapFind, Ne.symm hne]
    · by_cases hk2 : k1 = k2
      · subst hk2
        simp [mapAssign, mapFind, hk]
      · simp [mapAssign, mapFind, hk, hk2, ih]

theorem mapAssign_same (k : K) (v : V) :
    ∀ m : List (K × V), mapFind m k = some v → mapAssign k v m = m := by
  intro m
  induction m with
  | nil => simp [mapAssign]
  | cons e rest ih =>
    obtain ⟨k1, v1⟩ := e
    intro h
    by_cases hk : k1 = k
    · simp only [mapFind, hk, if_true, Option.some.injEq] at h
      simp [mapAssign, hk, h]
    · simp only [mapFind, hk, if_false] at h
      simp [mapAssign, hk, ih h]

theorem mapFind_mem (k : K) (v : V) :
    ∀ m : List (K × V), mapFind m k = some v → (k, v) ∈ m := by
  intro m
  induction m with
  | nil => simp [mapFind]
  | cons e rest ih =>
    obtain ⟨k1, v1⟩ := e
    intro h
    by_cases hk : k1 = k
    · simp only [mapFind, hk, if_true, Option.some.injEq] at h
      simp [hk, h]
    · simp only [mapFind, hk, if_false] at h
      exact List.mem_cons_of_mem _ (ih h)

theorem mapFind_isSome_iff (k : K) :
    ∀ m : List (K × V), (mapFind m k).isSome ↔ k ∈ m.map Prod.fst := by
  intro m
  induction m with
  | nil => simp [mapFind]
  | cons e rest ih =>
    obtain ⟨k1, v1⟩ := e
    by_cases hk : k1 = k
    · simp [mapFind, hk]
    · have hk2 : ¬ k = k1 := fun h => hk h.symm
      simp only [mapFind, hk, if_false, List.map_cons, List.mem_cons, hk2, false_or]
      exact ih

end MapLemmas

theorem mem_setInsert (x y : Int) : ∀ s : List Int, y ∈ setInsert x s ↔ y = x ∨ y ∈ s := by
  intro s
  induction s with
  | nil => simp [setInsert]
  | cons z rest ih =>
    simp only [setInsert]
    split_ifs with h1 h2
    · simp
    · subst h2; simp
    · simp only [List.mem_cons, ih]; tauto

theorem sorted_setInsert (x : Int) :
    ∀ s : List Int, s.Sorted (· < ·) → (setInsert x s).Sorted (· < ·) := by
  intro s
  induction s with
  | nil => intro _; simp [setInsert]
  | cons z rest ih =>
    intro hs
    simp only [setInsert]
    split_ifs with h1 h2
    · refine List.sorted_cons.2 ⟨?_, hs⟩
      intro b hb
      rcases List.mem_cons.1 hb with rfl | hb
      · exact h1
      · exact lt_trans h1 (List.rel_of_sorted_cons hs b hb)
    · exact hs
    · refine List.sorted_cons.2 ⟨?_, ih (List.Sorted.of_cons hs)⟩
      intro b hb
      rcases (mem_setInsert x b rest).1 hb with rfl | hb
      · omega
      · exact List.rel_of_sorted_cons hs b hb

theorem mem_insertKeys (y : Int) :
    ∀ (p : Posting) (s : List Int), y ∈ insertKeys p s ↔ y ∈ s ∨ y ∈ p.map Prod.fst := by
  intro p
  induction p with
  | nil => intro s; simp [insertKeys]
  | cons e rest ih =>
    intro s
    have := ih (setInsert e.1 s)
    simp only [insertKeys, List.foldl_cons] at this ⊢
    rw [this, mem_setInsert]
    simp only [List.map_cons, List.mem_cons]
    tauto

theorem sorted_insertKeys :
    ∀ (p : Posting) (s : List Int), s.Sorted (· < ·) → (insertKeys p s).Sorted (· < ·) := by
  intro p
  induction p with
  | nil => intro s hs; simpa [insertKeys] using hs
  | cons e rest ih =>
    intro s hs
    have := ih (setInsert e.1 s) (sorted_setInsert e.1 s hs)
    simpa [insertKeys] using this

theorem mem_setIntersection (y : Int) (a b : List Int) :
    y ∈ setIntersection a b ↔ y ∈ a ∧ y ∈ b := by
  simp [setIntersection]

theorem sorted_setIntersection (a b : List Int) (ha : a.Sorted (· < ·)) :
    (setIntersection a b).Sorted (· < ·) := by
  unfold setIntersection
  exact List.Pairwise.sublist (List.filter_sublist a) ha

/-! ## The candidate set -/

theorem mem_docsOf (inv : InvertedIndex) (w : Str) (d : Int) :
    d ∈ docsOf inv w ↔ d ∈ postingIds inv w := by
  unfold docsOf postingIds
  cases h : mapFind inv w with
  | none => simp
  | some p => simp [mem_insertKeys]

theorem sorted_docsOf (inv : InvertedIndex) (w : Str) : (docsOf inv w).Sorted (· < ·) := by
  unfold docsOf
  cases h : mapFind inv w with
  | none => simp
  | some p => exact sorted_insertKeys p [] (List.sorted_nil)

theorem mem_foldl_inter (inv : InvertedIndex) (d : Int) :
    ∀ (ws : List Str) (init : List Int),
      d ∈ ws.foldl (fun cand w => setIntersection cand (docsOf inv w)) init ↔
        d ∈ init ∧ ∀ w ∈ ws, d ∈ postingIds inv w := by
  intro ws
  induction ws with
  | nil => intro init; simp
  | cons w rest ih =>
    intro init
    simp only [List.foldl_cons, ih, mem_setIntersection, mem_docsOf, List.mem_cons,
      forall_eq_or_imp]
    tauto

theorem sorted_foldl_inter (inv : InvertedIndex) :
    ∀ (ws : List Str) (init : List Int), init.Sorted (· < ·) →
      (ws.foldl (fun cand w => setIntersection cand (docsOf inv w)) init).Sorted (· < ·) := by
  intro ws
  induction ws with
  | nil => intro init h; simpa using h
  | cons w rest ih =>
    intro init h
    simp only [List.foldl_cons]
    exact ih _ (sorted_setIntersection _ _ h)

theorem mem_foldl_union (inv : InvertedIndex) (d : Int) :
    ∀ (ws : List Str) (init : List Int),
      d ∈ ws.foldl (fun cand w =>
          match mapFind inv w with
          | some p => insertKeys p cand
          | none => cand) init ↔
        d ∈ init ∨ ∃ w ∈ ws, d ∈ postingIds inv w := by
  intro ws
  induction ws with
  | nil => intro init; simp
  | cons w rest ih =>
    intro init
    simp only [List.foldl_cons, ih, List.mem_cons, exists_eq_or_imp]
    cases h : mapFind inv w with
    | none => simp [postingIds, h]
    | some p => simp [postingIds, h, mem_insertKeys, or_assoc]

theorem sorted_foldl_union (inv : InvertedIndex) :
    ∀ (ws : List Str) (init : List Int), init.Sorted (· < ·) →
      (ws.foldl (fun cand w =>
          match mapFind inv w with
          | some p => insertKeys p cand
          | none => cand) init).Sorted (· < ·) := by
  intro ws
  induction ws with
  | nil => intro init h; simpa using h
  | cons w rest ih =>
    intro init h
    simp only [List.foldl_cons]
    apply ih
    cases hw : mapFind inv w with
    | none => simpa using h
    | some p => exact sorted_insertKeys p init h

/-- In OR mode the candidates are the union of the posting-list ids. -/
theorem mem_candidateDocs_or (inv : InvertedIndex) (ws : List Str) (d : Int) :
    d ∈ candidateDocs inv false ws ↔ ∃ w ∈ ws, d ∈ postingIds inv w := by
  cases ws with
  | nil => simp [candidateDocs]
  | cons w0 rest =>
    simp only [candidateDocs, Bool.false_eq_true, if_false]
    refine (mem_foldl_union inv d (w0 :: rest) []).trans ?_
    simp

/-- In AND mode the candidates of a non-empty term list are the intersection
of the posting-list ids. -/
theorem mem_candidateDocs_and (inv : InvertedIndex) (ws : List Str) (hne : ws ≠ [])
    (d : Int) : d ∈ candidateDocs inv true ws ↔ ∀ w ∈ ws, d ∈ postingIds inv w := by
  cases ws with
  | nil => exact absurd rfl hne
  | cons w0 rest =>
    simp only [candidateDocs, if_true]
    rw [mem_foldl_inter, mem_docsOf]
    simp

theorem candidateDocs_nil (inv : InvertedIndex) (isAND : Bool) :
    candidateDocs inv isAND [] = [] := rfl

theorem sorted_candidateDocs (inv : InvertedIndex) (isAND : Bool) (ws : List Str) :
    (candidateDocs inv isAND ws).Sorted (· < ·) := by
  cases ws with
  | nil => simp [candidateDocs]
  | cons w0 rest =>
    cases isAND with
    | true =>
      simp only [candidateDocs, if_true]
      exact sorted_foldl_inter inv rest _ (sorted_docsOf inv w0)
    | false =>
      simp only [candidateDocs, Bool.false_eq_true, if_false]
      exact sorted_foldl_union inv (w0 :: rest) [] List.sorted_nil

theorem nodup_candidateDocs (inv : InvertedIndex) (isAND : Bool) (ws : List Str) :
    (candidateDocs inv isAND ws).Nodup :=
  (sorted_candidateDocs inv isAND ws).nodup

/-- A candidate is always a document id of some posting list of a query term. -/
theorem candidate_mem_posting (inv : InvertedIndex) (isAND : Bool) (ws : List Str) (d : Int)
    (h : d ∈ candidateDocs inv isAND ws) : ∃ w ∈ ws, d ∈ postingIds inv w := by
  cases isAND with
  | false => exact (mem_candidateDocs_or inv ws d).1 h
  | true =>
    cases ws with
    | nil => simp [candidateDocs] at h
    | cons w0 rest =>
      have := (mem_candidateDocs_and inv (w0 :: rest) (by simp) d).1 h
      exact ⟨w0, by simp, this w0 (by simp)⟩

/-! ## The sort -/

theorem perm_sortInsert {α : Type} (comp : α → α → Bool) (a : α) :
    ∀ l : List α, (sortInsert comp a l).Perm (a :: l) := by
  intro l
  induction l with
  | nil => simp [sortInsert]
  | cons b rest ih =>
    simp only [sortInsert]
    split_ifs
    · exact ((List.Perm.cons b ih).trans (List.Perm.swap a b rest))
    · exact List.Perm.refl _

theorem perm_stdSort {α : Type} (comp : α → α → Bool) :
    ∀ l : List α, (stdSort comp l).Perm l := by
  intro l
  induction l with
  | nil => simp [stdSort]
  | cons a rest ih =>
    simp only [stdSort]
    exact (perm_sortInsert comp a _).trans (List.Perm.cons a ih)

theorem mem_stdSort {α : Type} (comp : α → α → Bool) (l : List α) (x : α) :
    x ∈ stdSort comp l ↔ x ∈ l :=
  (perm_stdSort comp l).mem_iff

theorem stdSort_nil {α : Type} (comp : α → α → Bool) : stdSort comp ([] : List α) = [] := rfl

/-! ## Entries of the index -/

theorem mem_postingIds_iff (inv : InvertedIndex) (t : Str) (d : Int) :
    d ∈ postingIds inv t ↔ (lookupEntry inv t d).isSome := by
  unfold postingIds lookupEntry
  cases h : mapFind inv t with
  | none => simp
  | some p => simpa using (mapFind_isSome_iff d p).symm

theorem postingIndex_fst (p : Posting) (d : Int) :
    (postingIndex p d).1 = (mapFind p d).getD 0 := by
  unfold postingIndex
  cases h : mapFind p d <;> simp

theorem mapFind_postingIndex_snd (p : Posting) (d d2 : Int) :
    mapFind (postingIndex p d).2 d2 =
      if d2 = d ∧ mapFind p d = none then some 0 else mapFind p d2 := by
  unfold postingIndex
  cases h : mapFind p d with
  | some v => simp
  | none =>
    by_cases hd : d2 = d
    · subst hd
      simp [mapFind_insertNew_self intLess d2 0 p h]
    · simp only [hd, false_and, if_false]
      exact mapFind_insertNew_ne intLess d d2 0 hd p

theorem postingIndex_snd_of_mem (p : Posting) (d : Int) (h : (mapFind p d).isSome) :
    (postingIndex p d).2 = p := by
  unfold postingIndex
  cases hf : mapFind p d with
  | some v => rfl
  | none => simp [hf] at h

/-- Effect on the entries of one access `it->second[docID]` through a found
iterator: at most a zero entry for `(w, d)` appears. -/
theorem lookupEntry_touch (inv : InvertedIndex) (w : Str) (p : Posting) (d : Int)
    (hp : mapFind inv w = some p) (w2 : Str) (d2 : Int) :
    lookupEntry (mapAssign w (postingIndex p d).2 inv) w2 d2 =
      if w2 = w ∧ d2 = d ∧ mapFind p d = none then some 0 else lookupEntry inv w2 d2 := by
  unfold lookupEntry
  by_cases hw : w2 = w
  · subst hw
    rw [mapFind_assign_self w2 _ inv (by simp [hp]), hp]
    simp only [mapFind_postingIndex_snd, true_and]
  · rw [mapFind_assign_ne w w2 _ hw]
    simp [hw]

theorem recordedCount_touch (inv : InvertedIndex) (w : Str) (p : Posting) (d : Int)
    (hp : mapFind inv w = some p) (w2 : Str) (d2 : Int) :
    recordedCount (mapAssign w (postingIndex p d).2 inv) w2 d2 = recordedCount inv w2 d2 := by
  unfold recordedCount
  rw [lookupEntry_touch inv w p d hp]
  split_ifs with h
  · obtain ⟨h1, h2, h3⟩ := h
    subst h1; subst h2
    simp [lookupEntry, hp, h3]
  · rfl

theorem touch_eq_self (inv : InvertedIndex) (w : Str) (p : Posting) (d : Int)
    (hp : mapFind inv w = some p) (hd : (mapFind p d).isSome) :
    mapAssign w (postingIndex p d).2 inv = inv := by
  rw [postingIndex_snd_of_mem p d hd]
  exact mapAssign_same w p inv hp

/-! ## The scoring loops -/

/-- The frequency loop adds up the recorded counts and changes no recorded
count. -/
theorem freqLoop_spec (d : Int) :
    ∀ (ws : List Str) (st : Int × InvertedIndex),
      (freqLoop d ws st).1 = st.1 + (ws.map (fun w => recordedCount st.2 w d)).sum ∧
      ∀ w2 d2, recordedCount (freqLoop d ws st).2 w2 d2 = recordedCount st.2 w2 d2 := by
  intro ws
  induction ws with
  | nil => intro st; simp [freqLoop]
  | cons w rest ih =>
    intro st
    simp only [freqLoop]
    cases hp : mapFind st.2 w with
    | none =>
      have h0 : recordedCount st.2 w d = 0 := by simp [recordedCount, lookupEntry, hp]
      obtain ⟨h1, h2⟩ := ih st
      simp only [List.map_cons, List.sum_cons, h0, zero_add]
      exact ⟨h1, h2⟩
    | some p =>
      obtain ⟨h1, h2⟩ := ih (st.1 + (postingIndex p d).1, mapAssign w (postingIndex p d).2 st.2)
      have hc : ∀ w2 d2, recordedCount (mapAssign w (postingIndex p d).2 st.2) w2 d2 =
          recordedCount st.2 w2 d2 := recordedCount_touch st.2 w p d hp
      have hv : (postingIndex p d).1 = recordedCount st.2 w d := by
        rw [postingIndex_fst]; simp [recordedCount, lookupEntry, hp]
      refine ⟨?_, ?_⟩
      · simp only at h1 ⊢
        rw [h1, hv]
        simp only [List.map_cons, List.sum_cons, hc]
        ring
      · intro w2 d2
        simp only at h2 ⊢
        rw [h2, hc]

/-- The score loop returns whenever `documents[docID]` is in range, and it
changes no recorded count. -/
theorem tfidfLoop_total {S : Type} [LinearOrderedField S] (ln : S → S)
    (documents : List Document) (d : Int) (hd : (docAt documents d).isSome) :
    ∀ (ws : List Str) (st : Double S × InvertedIndex),
      ∃ st2, tfidfLoop ln documents d ws st = some st2 ∧
        ∀ w2 d2, recordedCount st2.2 w2 d2 = recordedCount st.2 w2 d2 := by
  intro ws
  induction ws with
  | nil => intro st; exact ⟨st, rfl, fun _ _ => rfl⟩
  | cons w rest ih =>
    intro st
    simp only [tfidfLoop]
    cases hp : mapFind st.2 w with
    | none => exact ih st
    | some p =>
      simp only
      split_ifs with hdf
      · obtain ⟨doc, hdoc⟩ := Option.isSome_iff_exists.1 hd
        simp only [hdoc]
        obtain ⟨st2, h1, h2⟩ := ih (Double.add st.1
            (tfidfTerm ln (postingIndex p d).1 doc.totalWords documents.length (p.length : Int)),
              mapAssign w (postingIndex p d).2 st.2)
        refine ⟨st2, h1, ?_⟩
        intro w2 d2
        rw [h2]
        exact recordedCount_touch st.2 w p d hp w2 d2
      · exact ih st

/-- The candidate loop returns whenever every candidate is in range; it
appends one result per candidate, in order, whose frequency is the sum of
the recorded counts of the query terms. -/
theorem scoreLoop_spec {S : Type} [LinearOrderedField S] (ln : S → S)
    (documents : List Document) (ws : List Str) :
    ∀ (cand : List Int) (st : List (Result S) × InvertedIndex),
      (∀ d ∈ cand, (docAt documents d).isSome) →
      ∃ new inv2, scoreLoop ln documents ws cand st = some (st.1 ++ new, inv2) ∧
        new.map Result.docID = cand ∧
        (∀ r ∈ new, r.frequency = (ws.map (fun w => recordedCount st.2 w r.docID)).sum) ∧
        ∀ w2 d2, recordedCount inv2 w2 d2 = recordedCount st.2 w2 d2 := by
  intro cand
  induction cand with
  | nil => intro st _; exact ⟨[], st.2, by simp [scoreLoop], rfl, by simp, fun _ _ => rfl⟩
  | cons d rest ih =>
    intro st hb
    simp only [scoreLoop]
    obtain ⟨hf1, hf2⟩ := freqLoop_spec d ws (0, st.2)
    obtain ⟨t, ht, ht2⟩ := tfidfLoop_total ln documents d (hb d (by simp)) ws
      (Double.real 0, (freqLoop d ws (0, st.2)).2)
    simp only [ht]
    obtain ⟨new, inv2, h1, h2, h3, h4⟩ :=
      ih (st.1 ++ [⟨d, (freqLoop d ws (0, st.2)).1, t.1⟩], t.2)
        (fun x hx => hb x (List.mem_cons_of_mem _ hx))
    have hcount : ∀ w2 d2, recordedCount t.2 w2 d2 = recordedCount st.2 w2 d2 := by
      intro w2 d2; rw [ht2, hf2]
    refine ⟨⟨d, (freqLoop d ws (0, st.2)).1, t.1⟩ :: new, inv2, ?_, ?_, ?_, ?_⟩
    · rw [h1]; simp
    · simp [h2]
    · intro r hr
      rcases List.mem_cons.1 hr with rfl | hr
      · simp only [hf1, zero_add]
      · rw [h3 r hr]
        simp only [hcount]
    · intro w2 d2
      rw [h4, hcount]

/-! ## Query parsing -/

theorem splitWords_foldl (ws : List Str) :
    ∀ acc : List Str,
      ws.foldl (fun words word => words ++ [clean word]) acc = acc ++ ws.map clean := by
  induction ws with
  | nil => intro acc; simp
  | cons w rest ih => intro acc; simp [ih]

theorem splitWords_eq (query : Str) : splitWords query = (extractWords query).map clean := by
  unfold splitWords
  rw [splitWords_foldl]; simp

theorem classify_foldl (a o : Str) (hao : a ≠ o) (ws : List Str) :
    ∀ st : QueryFlags,
      ws.foldl (fun st w =>
          if w = a then { st with isAND := true }
          else if w = o then { st with isOR := true }
          else { st with filteredWords := st.filteredWords ++ [w] }) st =
        ⟨st.isAND || decide (a ∈ ws), st.isOR || decide (o ∈ ws),
          st.filteredWords ++ ws.filter (fun w => decide (w ≠ a) && decide (w ≠ o))⟩ := by
  induction ws with
  | nil => intro st; simp
  | cons w rest ih =>
    intro st
    rw [List.foldl_cons, ih]
    by_cases h1 : w = a
    · subst h1
      have hoa : ¬ o = w := fun h => hao h.symm
      simp [hoa]
    · by_cases h2 : w = o
      · subst h2
        have h1s : ¬ a = w := fun h => h1 h.symm
        simp [h1, h1s]
      · have h1s : ¬ a = w := fun h => h1 h.symm
        have h2s : ¬ o = w := fun h => h2 h.symm
        simp [h1, h2, h1s, h2s]

theorem classify_eq (ws : List Str) :
    classify ws =
      ⟨decide ("and".toList ∈ ws), decide ("or".toList ∈ ws),
        ws.filter (fun w => decide (w ≠ "and".toList) && decide (w ≠ "or".toList))⟩ := by
  unfold classify
  refine (classify_foldl "and".toList "or".toList (by decide) ws ⟨false, false, []⟩).trans ?_
  simp

theorem queryIsAND_iff (query : Str) :
    queryIsAND query = true ↔ ∃ tok ∈ extractWords query, clean tok = "and".toList := by
  unfold queryIsAND
  rw [classify_eq, splitWords_eq]
  simp

theorem queryTerms_eq (query : Str) :
    queryTerms query =
      ((extractWords query).map clean).filter
        (fun w => decide (w ≠ "and".toList) && decide (w ≠ "or".toList)) := by
  unfold queryTerms
  rw [classify_eq, splitWords_eq]

theorem extractFrom_spaces :
    ∀ s : Str, (∀ c ∈ s, isspace c = true) → extractFrom [] s = [] := by
  intro s
  induction s with
  | nil => intro _; simp [extractFrom]
  | cons c rest ih =>
    intro h
    simp only [extractFrom, h c (by simp), if_true]
    exact ih (fun x hx => h x (List.mem_cons_of_mem _ hx))

/-! ## Arithmetic on real scores -/

theorem tfidfTerm_real {S : Type} [LinearOrderedField S] (ln : S → S) (count tw : Int)
    (n : Nat) (df : Int) (htw : tw ≠ 0) (hn : 0 < n) (hdf : 0 < df) :
    tfidfTerm ln count tw n df =
      Double.real (((count : S) / (tw : S)) * ln (((n : Nat) : S) / (df : S))) := by
  have h1 : ((tw : Int) : S) ≠ 0 := by exact_mod_cast htw
  have h2 : ((df : Int) : S) ≠ 0 := by
    have : df ≠ 0 := by omega
    exact_mod_cast this
  have h3 : (0 : S) < ((n : Nat) : S) / ((df : Int) : S) := by
    apply div_pos
    · exact_mod_cast hn
    · exact_mod_cast hdf
  simp only [tfidfTerm, Double.ofInt, Double.ofNat, Double.div, h1, h2, if_false, Double.log,
    h3, if_true, Double.mul]

theorem double_add_real {S : Type} [LinearOrderedField S] (x y : S) :
    Double.add (Double.real x) (Double.real y) = Double.real (x + y) := rfl

/-! ## The sort orders real scores in descending order -/

theorem sorted_sortInsert {S : Type} [LinearOrderedField S] (a : Result S)
    (ha : ∃ x, a.tfidf = Double.real x) :
    ∀ l : List (Result S), (∀ r ∈ l, ∃ x, r.tfidf = Double.real x) →
      l.Pairwise (fun p q => Double.ge p.tfidf q.tfidf = true) →
      (sortInsert (fun p q => Double.gt p.tfidf q.tfidf) a l).Pairwise
        (fun p q => Double.ge p.tfidf q.tfidf = true) := by
  obtain ⟨x, hx⟩ := ha
  intro l
  induction l with
  | nil => intro _ _; simp [sortInsert]
  | cons b rest ih =>
    intro hreal hl
    obtain ⟨y, hy⟩ := hreal b (by simp)
    have hb := (List.pairwise_cons.1 hl).1
    have hrest := List.Pairwise.of_cons hl
    have hreal2 : ∀ r ∈ rest, ∃ z, r.tfidf = Double.real z :=
      fun r hr => hreal r (List.mem_cons_of_mem _ hr)
    simp only [sortInsert]
    split_ifs with hc
    · rw [hy, hx] at hc
      have hc2 : x < y := by simpa [Double.gt] using hc
      refine List.pairwise_cons.2 ⟨?_, ih hreal2 hrest⟩
      intro z hz
      rcases List.mem_cons.1 ((perm_sortInsert _ a rest).mem_iff.1 hz) with rfl | hz
      · rw [hy, hx]
        simpa [Double.ge] using le_of_lt hc2
      · exact hb z hz
    · rw [hy, hx] at hc
      have hc2 : y ≤ x := by simpa [Double.gt] using hc
      refine List.pairwise_cons.2 ⟨?_, hl⟩
      intro z hz
      rcases List.mem_cons.1 hz with rfl | hz
      · rw [hy, hx]
        simpa [Double.ge] using hc2
      · obtain ⟨w, hw⟩ := hreal2 z hz
        have hbz := hb z hz
        rw [hy, hw] at hbz
        have hwy : w ≤ y := by simpa [Double.ge] using hbz
        rw [hx, hw]
        simpa [Double.ge] using le_trans hwy hc2

theorem sorted_stdSort {S : Type} [LinearOrderedField S] :
    ∀ l : List (Result S), (∀ r ∈ l, ∃ x, r.tfidf = Double.real x) →
      (stdSort (fun p q => Double.gt p.tfidf q.tfidf) l).Pairwise
        (fun p q => Double.ge p.tfidf q.tfidf = true) := by
  intro l
  induction l with
  | nil => intro _; simp [stdSort]
  | cons a rest ih =>
    intro hreal
    simp only [stdSort]
    refine sorted_sortInsert a (hreal a (by simp)) _ ?_
      (ih (fun r hr => hreal r (List.mem_cons_of_mem _ hr)))
    intro r hr
    exact hreal r (List.mem_cons_of_mem _ ((perm_stdSort _ rest).mem_iff.1 hr))

/-! ## Shape of a search -/

theorem inBounds_postingIds (indexer : Indexer) (hb : InBounds indexer) (w : Str) (d : Int)
    (h : d ∈ postingIds indexer.invertedIndex w) : (docAt indexer.documents d).isSome := by
  unfold postingIds at h
  cases hp : mapFind indexer.invertedIndex w with
  | none => simp [hp] at h
  | some p =>
    simp only [hp, Option.getD_some, List.mem_map] at h
    obtain ⟨x, hx, rfl⟩ := h
    exact hb (w, p) (mapFind_mem w p _ hp) x hx

theorem inBounds_candidates (indexer : Indexer) (hb : InBounds indexer) (isAND : Bool)
    (ws : List Str) :
    ∀ d ∈ candidateDocs indexer.invertedIndex isAND ws, (docAt indexer.documents d).isSome := by
  intro d hd
  obtain ⟨w, _, hw⟩ := candidate_mem_posting _ isAND ws d hd
  exact inBounds_postingIds indexer hb w d hw

/-- A search whose candidates are all in range returns the sorted rows of
the candidate loop: one row per candidate, with the summed recorded counts
as frequency, and an index with the same recorded counts. -/
theorem search_spec {S : Type} [LinearOrderedField S] (ln : S → S) (indexer : Indexer)
    (query : Str)
    (hb : ∀ d ∈ candidateDocs indexer.invertedIndex (queryIsAND query) (queryTerms query),
      (docAt indexer.documents d).isSome) :
    ∃ rows inv2,
      search ln indexer query =
        some (stdSort (fun a b => Double.gt a.tfidf b.tfidf) rows,
          { indexer with invertedIndex := inv2 }) ∧
      rows.map Result.docID =
        candidateDocs indexer.invertedIndex (queryIsAND query) (queryTerms query) ∧
      (∀ r ∈ rows, r.frequency =
        ((queryTerms query).map (fun w => recordedCount indexer.invertedIndex w r.docID)).sum) ∧
      ∀ w d, recordedCount inv2 w d = recordedCount indexer.invertedIndex w d := by
  obtain ⟨new, inv2, h1, h2, h3, h4⟩ :=
    scoreLoop_spec ln indexer.documents (queryTerms query) _ ([], indexer.invertedIndex) hb
  refine ⟨new, inv2, ?_, h2, h3, h4⟩
  unfold search
  simp only [queryIsAND, queryTerms] at h1
  simp only [h1, List.nil_append]

theorem search_unfold {S : Type} [LinearOrderedField S] (ln : S → S) (indexer : Indexer)
    (query : Str) :
    search ln indexer query =
      (scoreLoop ln indexer.documents (queryTerms query)
          (candidateDocs indexer.invertedIndex (queryIsAND query) (queryTerms query))
          ([], indexer.invertedIndex)).map
        (fun st => (stdSort (fun a b => Double.gt a.tfidf b.tfidf) st.1,
          { indexer with invertedIndex := st.2 })) := by
  unfold search queryTerms queryIsAND
  simp only
  cases scoreLoop ln indexer.documents (classify (splitWords query)).filteredWords
    (candidateDocs indexer.invertedIndex (classify (splitWords query)).isAND
      (classify (splitWords query)).filteredWords) ([], indexer.invertedIndex) <;> rfl

/-- Whenever the candidate loop returns, it has appended one result per
candidate, in the order of the candidate set. -/
theorem scoreLoop_docIDs {S : Type} [LinearOrderedField S] (ln : S → S)
    (documents : List Document) (ws : List Str) :
    ∀ (cand : List Int) (st st2 : List (Result S) × InvertedIndex),
      scoreLoop ln documents ws cand st = some st2 →
      st2.1.map Result.docID = st.1.map Result.docID ++ cand := by
  intro cand
  induction cand with
  | nil =>
    intro st st2 h
    simp only [scoreLoop, Option.some.injEq] at h
    subst h; simp
  | cons d rest ih =>
    intro st st2 h
    simp only [scoreLoop] at h
    cases ht : tfidfLoop ln documents d ws (Double.real 0, (freqLoop d ws (0, st.2)).2) with
    | none => simp [ht] at h
    | some t =>
      simp only [ht] at h
      rw [ih _ _ h]
      simp

/-- Whenever a search returns, its list is the sorted list of the rows of the
candidate loop, and its docIDs are a rearrangement of the candidate set. -/
theorem search_returned {S : Type} [LinearOrderedField S] (ln : S → S) (indexer : Indexer)
    (query : Str) (res : List (Result S)) (indexer2 : Indexer)
    (h : search ln indexer query = some (res, indexer2)) :
    (res.map Result.docID).Perm
      (candidateDocs indexer.invertedIndex (queryIsAND query) (queryTerms query)) ∧
    ∃ st, scoreLoop ln indexer.documents (queryTerms query)
        (candidateDocs indexer.invertedIndex (queryIsAND query) (queryTerms query))
        ([], indexer.invertedIndex) = some st ∧
      res = stdSort (fun a b => Double.gt a.tfidf b.tfidf) st.1 := by
  rw [search_unfold] at h
  cases hs : scoreLoop ln indexer.documents (queryTerms query)
      (candidateDocs indexer.invertedIndex (queryIsAND query) (queryTerms query))
      ([], indexer.invertedIndex) with
  | none => simp [hs] at h
  | some st =>
    simp only [hs, Option.map_some', Option.some.injEq, Prod.mk.injEq] at h
    obtain ⟨h1, -⟩ := h
    have hd := scoreLoop_docIDs ln _ _ _ _ _ hs
    simp only [List.map_nil, List.nil_append] at hd
    subst h1
    refine ⟨?_, st, rfl, rfl⟩
    rw [← hd]
    exact (perm_stdSort _ st.1).map Result.docID

/-! ## Claims on query evaluation over an arbitrary index -/

/-- C2 (AND mode). For every index state and every query with a token
normalizing to "and" and at least one term: whenever `search` returns, the
docIDs of the returned list are exactly the ids lying in the posting list of
every term (an absent term has the empty posting list), so one absent term
empties the result; and `search` does return when the ids stored in the
posting lists are valid positions of the document vector. -/
theorem C2_and_mode {S : Type} [LinearOrderedField S] (ln : S → S) (indexer : Indexer)
    (query : Str)
    (hand : ∃ tok ∈ extractWords query, clean tok = "and".toList)
    (hterm : queryTerms query ≠ []) :
    (∀ res indexer2, search ln indexer query = some (res, indexer2) →
      (∀ d : Int, d ∈ res.map Result.docID ↔
        ∀ t ∈ queryTerms query, d ∈ postingIds indexer.invertedIndex t) ∧
      ((∃ t ∈ queryTerms query, mapFind indexer.invertedIndex t = none) → res = [])) ∧
    (InBounds indexer → ∃ res indexer2, search ln indexer query = some (res, indexer2)) := by
  have hA : queryIsAND query = true := (queryIsAND_iff query).2 hand
  refine ⟨?_, ?_⟩
  · intro res indexer2 hs
    obtain ⟨hperm, -⟩ := search_returned ln indexer query res indexer2 hs
    have hmem : ∀ d : Int, d ∈ res.map Result.docID ↔
        ∀ t ∈ queryTerms query, d ∈ postingIds indexer.invertedIndex t := by
      intro d
      rw [hperm.mem_iff, hA]
      exact mem_candidateDocs_and _ _ hterm d
    refine ⟨hmem, ?_⟩
    rintro ⟨t, ht, habs⟩
    apply List.eq_nil_iff_forall_not_mem.2
    intro r hr
    have h1 := (hmem r.docID).1 (List.mem_map_of_mem _ hr) t ht
    simp [postingIds, habs] at h1
  · intro hb
    obtain ⟨rows, inv2, hs, -, -, -⟩ :=
      search_spec ln indexer query (inBounds_candidates indexer hb _ _)
    exact ⟨_, _, hs⟩

/-- C6 (query mode and operator extraction). `search` runs in AND mode exactly
when some whitespace-delimited token of the query normalizes to "and"; its
term list is the normalized tokens other than "and" and "or", in order; and
the call depends on the query only through that mode and that term list. -/
theorem C6_query_mode {S : Type} [LinearOrderedField S] (ln : S → S) (indexer : Indexer)
    (query : Str) :
    (queryIsAND query = true ↔ ∃ tok ∈ extractWords query, clean tok = "and".toList) ∧
    queryTerms query =
      ((extractWords query).map clean).filter
        (fun w => decide (w ≠ "and".toList) && decide (w ≠ "or".toList)) ∧
    "and".toList ∉ queryTerms query ∧ "or".toList ∉ queryTerms query ∧
    search ln indexer query =
      match scoreLoop ln indexer.documents (queryTerms query)
          (candidateDocs indexer.invertedIndex
            (decide (∃ tok ∈ extractWords query, clean tok = "and".toList))
            (queryTerms query))
          ([], indexer.invertedIndex) with
      | none => none
      | some st =>
        some (stdSort (fun a b => Double.gt a.tfidf b.tfidf) st.1,
          { indexer with invertedIndex := st.2 }) := by
  refine ⟨queryIsAND_iff query, queryTerms_eq query, ?_, ?_, ?_⟩
  · rw [queryTerms_eq]; simp
  · rw [queryTerms_eq]; simp
  · have hA : (classify (splitWords query)).isAND =
        decide (∃ tok ∈ extractWords query, clean tok = "and".toList) := by
      rw [Bool.eq_iff_iff]
      simp only [decide_eq_true_eq]
      exact queryIsAND_iff query
    rw [← hA]
    rfl

/-- C8 (empty term list). For every index state and every query that is
empty, made of whitespace only, or made only of tokens normalizing to "and"
or "or", `search` returns the empty list (and leaves the indexer as it was). -/
theorem C8_empty_terms {S : Type} [LinearOrderedField S] (ln : S → S) (indexer : Indexer)
    (query : Str)
    (h : query = [] ∨ (∀ c ∈ query, isspace c = true) ∨
      ∀ tok ∈ extractWords query, clean tok = "and".toList ∨ clean tok = "or".toList) :
    queryTerms query = [] ∧ search ln indexer query = some ([], indexer) := by
  have hterms : queryTerms query = [] := by
    rw [queryTerms_eq]
    rcases h with h | h | h
    · subst h; rfl
    · simp [extractWords, extractFrom_spaces query h]
    · apply List.filter_eq_nil_iff.2
      intro w hw
      obtain ⟨tok, htok, rfl⟩ := List.mem_map.1 hw
      rcases h tok htok with h1 | h1 <;> simp [h1]
  refine ⟨hterms, ?_⟩
  unfold search
  unfold queryTerms at hterms
  simp only [hterms, candidateDocs, scoreLoop, stdSort]

/-! ## Ingestion -/

theorem lookupEntry_recordWord (inv : InvertedIndex) (w : Str) (d : Int) (w2 : Str) (d2 : Int) :
    lookupEntry (recordWord inv w d) w2 d2 =
      if w2 = w ∧ d2 = d then some (recordedCount inv w d + 1) else lookupEntry inv w2 d2 := by
  -- the index once `invertedIndex[word]` has been evaluated
  obtain ⟨inv1, hinv1, hw1, hother⟩ : ∃ inv1 : InvertedIndex,
      inv1 = (match mapFind inv w with
        | some _ => inv
        | none => mapInsertNew strLess w [] inv) ∧
      mapFind inv1 w = some ((mapFind inv w).getD []) ∧
      ∀ w3, w3 ≠ w → mapFind inv1 w3 = mapFind inv w3 := by
    refine ⟨_, rfl, ?_, ?_⟩
    · cases h : mapFind inv w with
      | some p => simp [h]
      | none => simpa using mapFind_insertNew_self strLess w [] inv h
    · intro w3 hw3
      cases h : mapFind inv w with
      | some p => rfl
      | none => exact mapFind_insertNew_ne strLess w w3 [] hw3 inv
  have hrw : recordWord inv w d =
      mapAssign w (mapAssign d ((postingIndex ((mapFind inv1 w).getD []) d).1 + 1)
        (postingIndex ((mapFind inv1 w).getD []) d).2) inv1 := by
    rw [hinv1]; rfl
  rw [hrw, hw1]
  simp only [Option.getD_some]
  generalize hp : (mapFind inv w).getD [] = p
  have hcount : recordedCount inv w d = (mapFind p d).getD 0 := by
    rw [← hp]
    unfold recordedCount lookupEntry
    cases h : mapFind inv w <;> simp [mapFind]
  unfold lookupEntry
  by_cases hw : w2 = w
  · subst hw
    rw [mapFind_assign_self w2 _ inv1 (by simp [hw1])]
    simp only [true_and]
    by_cases hd : d2 = d
    · subst hd
      rw [mapFind_assign_self d2 _ _ (by
        rw [mapFind_postingIndex_snd]; cases h : mapFind p d2 <;> simp)]
      simp [postingIndex_fst, hcount]
    · rw [mapFind_assign_ne d d2 _ hd, mapFind_postingIndex_snd]
      simp only [hd, false_and, if_false]
      rw [← hp]
      cases h : mapFind inv w2 <;> simp [mapFind]
  · rw [mapFind_assign_ne w w2 _ hw, hother w2 hw]
    simp [hw]

theorem recordedCount_recordWord (inv : InvertedIndex) (w : Str) (d : Int) (w2 : Str)
    (d2 : Int) :
    recordedCount (recordWord inv w d) w2 d2 =
      recordedCount inv w2 d2 + if w2 = w ∧ d2 = d then 1 else 0 := by
  unfold recordedCount
  rw [lookupEntry_recordWord]
  split_ifs with h
  · obtain ⟨rfl, rfl⟩ := h
    simp [recordedCount]
  · simp

/-- The word loop of `addDocument` counts the words and adds, for the new id,
the number of occurrences of each word to its entry. -/
theorem recordWords_spec (id : Int) :
    ∀ (ws : List Str) (st : InvertedIndex × Int),
      (recordWords id ws st).2 = st.2 + (ws.length : Nat) ∧
      ∀ (w : Str) (d : Int), lookupEntry (recordWords id ws st).1 w d =
        if d = id ∧ 0 < ws.count w then some (recordedCount st.1 w d + (ws.count w : Nat))
        else lookupEntry st.1 w d := by
  intro ws
  induction ws with
  | nil => intro st; simp [recordWords]
  | cons word rest ih =>
    intro st
    obtain ⟨h1, h2⟩ := ih (recordWord st.1 word id, st.2 + 1)
    simp only [recordWords]
    refine ⟨?_, ?_⟩
    · rw [h1]; simp only [List.length_cons]; push_cast; ring
    · intro w d
      rw [h2]
      simp only [recordedCount_recordWord, lookupEntry_recordWord, List.count_cons]
      by_cases hd : d = id
      · subst hd
        by_cases hw : word = w
        · subst hw
          by_cases hc : 0 < List.count word rest
          · simp [hc]; ring
          · have hc0 : List.count word rest = 0 := by omega
            simp [hc0]
        · have hw2 : ¬ w = word := fun h => hw h.symm
          simp [hw, hw2]
      · simp [hd]

theorem parse_dispatch (fs : Str → Option Str) (p : FileParser) (f : Str) :
    p.parse fs f = TxtParser.parse fs f := by
  cases p <;> rfl

theorem docAt_append_single (docs : List Document) (x : Document) (d : Int) :
    docAt (docs ++ [x]) d = if d = (docs.length : Nat) then some x else docAt docs d := by
  unfold docAt
  by_cases h0 : 0 ≤ d
  · obtain ⟨n, rfl⟩ := Int.eq_ofNat_of_zero_le h0
    simp only [h0, if_true, Int.toNat_ofNat, Nat.cast_inj]
    by_cases hn : n = docs.length
    · subst hn; simp
    · simp only [hn, if_false]
      rcases Nat.lt_or_gt_of_ne hn with hlt | hgt
      · simp [List.getElem?_append_left hlt]
      · rw [List.get?_eq_getElem?, List.get?_eq_getElem?,
          List.getElem?_eq_none (by simp; omega), List.getElem?_eq_none (by omega)]
  · have : ¬ d = (docs.length : Nat) := by omega
    simp [h0, this]

theorem docAt_length (docs : List Document) : docAt docs (docs.length : Nat) = none := by
  unfold docAt
  simp

theorem docAt_mem (docs : List Document) (d : Int) (doc : Document)
    (h : docAt docs d = some doc) : doc ∈ docs := by
  unfold docAt at h
  split_ifs at h
  exact List.get?_mem h

theorem mem_docAt (docs : List Document) (doc : Document) (h : doc ∈ docs) :
    ∃ d : Int, docAt docs d = some doc := by
  obtain ⟨n, hn, hget⟩ := List.getElem_of_mem h
  refine ⟨(n : Nat), ?_⟩
  unfold docAt
  simp [List.getElem?_eq_getElem hn, hget]

theorem fresh_empty : Fresh Indexer.empty := by
  refine ⟨?_, ?_, ?_⟩
  · intro w d
    simp [Indexer.empty, lookupEntry, mapFind, docAt]
  · intro d doc h
    simp [Indexer.empty, docAt] at h
  · intro doc h
    simp [Indexer.empty] at h

theorem occurrenceCount_pos_iff (w : Str) (doc : Document) :
    0 < occurrenceCount w doc ↔ w ∈ docTerms doc := by
  unfold occurrenceCount
  rw [Int.natCast_pos, List.count_pos_iff]

/-- Adding a supported file under the next free position keeps the index
fresh and appends exactly one document. -/
theorem fresh_addDocument (fs : Str → Option Str) (indexer : Indexer) (f : Str)
    (hf : (getParser f).isSome) (h : Fresh indexer) :
    Fresh (addDocument fs indexer f (indexer.documents.length : Nat)) ∧
    (addDocument fs indexer f (indexer.documents.length : Nat)).documents.length =
      indexer.documents.length + 1 := by
  obtain ⟨p, hp⟩ := Option.isSome_iff_exists.1 hf
  obtain ⟨hA, hB, hC⟩ := h
  obtain ⟨h1, h2⟩ := recordWords_spec (indexer.documents.length : Nat)
    (extractWords (p.parse fs f)) (indexer.invertedIndex, 0)
  have hnone : ∀ w, lookupEntry indexer.invertedIndex w (indexer.documents.length : Nat) = none := by
    intro w
    rw [hA, docAt_length]
  unfold addDocument
  simp only [hp]
  refine ⟨⟨?_, ?_, ?_⟩, by simp⟩
  · intro w d
    simp only [h2, docAt_append_single]
    by_cases hd : d = (indexer.documents.length : Nat)
    · subst hd
      simp only [true_and, if_true, recordedCount, hnone, Option.getD_none, zero_add,
        occurrenceCount, docTerms, Int.natCast_pos]
    · simp only [hd, false_and, if_false]
      exact hA w d
  · intro d doc hdoc
    rw [docAt_append_single] at hdoc
    by_cases hd : d = (indexer.documents.length : Nat)
    · simp only [hd, if_true, Option.some.injEq] at hdoc
      rw [← hdoc, hd]
    · simp only [hd, if_false] at hdoc
      exact hB d doc hdoc
  · intro doc hdoc
    rcases List.mem_append.1 hdoc with hdoc | hdoc
    · exact hC doc hdoc
    · simp only [List.mem_singleton] at hdoc
      subst hdoc
      simp only [h1, docTerms, zero_add]

theorem fresh_ingestFrom (fs : Str → Option Str) :
    ∀ (files : List Str) (i : Nat) (indexer : Indexer), AllSupported files →
      Fresh indexer → indexer.documents.length = i →
      Fresh (ingestFrom fs i files indexer) ∧
      (ingestFrom fs i files indexer).documents.length = i + files.length := by
  intro files
  induction files with
  | nil => intro i indexer _ h hl; exact ⟨h, by simpa [ingestFrom] using hl⟩
  | cons f rest ih =>
    intro i indexer hs h hl
    subst hl
    obtain ⟨h1, h2⟩ := fresh_addDocument fs indexer f (hs f (by simp)) h
    obtain ⟨h3, h4⟩ := ih (indexer.documents.length + 1) _
      (fun g hg => hs g (List.mem_cons_of_mem _ hg)) h1 h2
    simp only [ingestFrom]
    refine ⟨h3, ?_⟩
    rw [h4]; simp only [List.length_cons]; ring

/-- The index `main` builds is fresh. -/
theorem fresh_ingest (fs : Str → Option Str) (files : List Str) (hs : AllSupported files) :
    Fresh (ingest fs files) ∧ (ingest fs files).documents.length = files.length := by
  have := fresh_ingestFrom fs files 0 Indexer.empty hs fresh_empty rfl
  simpa [ingest] using this

/-! ## Claims on a freshly ingested index -/

theorem fresh_mem_postingIds (indexer : Indexer) (h : Fresh indexer) (w : Str) (d : Int) :
    d ∈ postingIds indexer.invertedIndex w ↔
      ∃ doc, docAt indexer.documents d = some doc ∧ w ∈ docTerms doc := by
  rw [mem_postingIds_iff, h.1 w d]
  cases hd : docAt indexer.documents d with
  | none => simp
  | some doc =>
    simp only [Option.some.injEq, exists_eq_left']
    rw [← occurrenceCount_pos_iff]
    split_ifs with hc <;> simp [hc]

theorem fresh_recordedCount (indexer : Indexer) (h : Fresh indexer) (w : Str) (d : Int)
    (doc : Document) (hd : docAt indexer.documents d = some doc) :
    recordedCount indexer.invertedIndex w d = occurrenceCount w doc := by
  unfold recordedCount
  rw [h.1 w d, hd]
  simp only
  split_ifs with hc
  · rfl
  · have : 0 ≤ occurrenceCount w doc := by unfold occurrenceCount; exact Int.natCast_nonneg _
    simp only [Option.getD_none]
    omega

theorem fresh_candidates_inRange (indexer : Indexer) (h : Fresh indexer) (isAND : Bool)
    (ws : List Str) :
    ∀ d ∈ candidateDocs indexer.invertedIndex isAND ws, (docAt indexer.documents d).isSome := by
  intro d hd
  obtain ⟨w, _, hw⟩ := candidate_mem_posting _ isAND ws d hd
  obtain ⟨doc, hdoc, _⟩ := (fresh_mem_postingIds indexer h w d).1 hw
  simp [hdoc]

/-- C1 (OR mode). On the index that `main` builds from supported files, for
every query none of whose tokens normalizes to "and", `search` returns, and
the docIDs of the returned list are exactly the ids of the stored documents
whose term sequence contains at least one query term, which is the union of
the posting-list ids of the query terms; when no query term occurs in any
document the returned list is empty. -/
theorem C1_or_mode {S : Type} [LinearOrderedField S] (ln : S → S) (fs : Str → Option Str)
    (files : List Str) (query : Str) (hs : AllSupported files)
    (hor : ∀ tok ∈ extractWords query, clean tok ≠ "and".toList) :
    ∃ res indexer2, search ln (ingest fs files) query = some (res, indexer2) ∧
      (∀ d : Int, d ∈ res.map Result.docID ↔
        ∃ doc ∈ (ingest fs files).documents, doc.id = d ∧
          ∃ t ∈ queryTerms query, t ∈ docTerms doc) ∧
      (∀ d : Int, d ∈ res.map Result.docID ↔
        ∃ t ∈ queryTerms query, d ∈ postingIds (ingest fs files).invertedIndex t) ∧
      ((∀ t ∈ queryTerms query, ∀ doc ∈ (ingest fs files).documents, t ∉ docTerms doc) →
        res = []) := by
  obtain ⟨hfresh, -⟩ := fresh_ingest fs files hs
  have hA : queryIsAND query = false := by
    cases h : queryIsAND query with
    | false => rfl
    | true =>
      obtain ⟨tok, h1, h2⟩ := (queryIsAND_iff query).1 h
      exact absurd h2 (hor tok h1)
  obtain ⟨rows, inv2, hsearch, hrows, -, -⟩ :=
    search_spec ln (ingest fs files) query (fresh_candidates_inRange _ hfresh _ _)
  have hunion : ∀ d : Int,
      d ∈ (stdSort (fun a b : Result S => Double.gt a.tfidf b.tfidf) rows).map Result.docID ↔
        ∃ t ∈ queryTerms query, d ∈ postingIds (ingest fs files).invertedIndex t := by
    intro d
    rw [((perm_stdSort _ rows).map Result.docID).mem_iff, hrows, hA]
    exact mem_candidateDocs_or _ _ d
  have hdocs : ∀ d : Int,
      d ∈ (stdSort (fun a b : Result S => Double.gt a.tfidf b.tfidf) rows).map Result.docID ↔
        ∃ doc ∈ (ingest fs files).documents, doc.id = d ∧
          ∃ t ∈ queryTerms query, t ∈ docTerms doc := by
    intro d
    rw [hunion]
    constructor
    · rintro ⟨t, ht, hd⟩
      obtain ⟨doc, hdoc, hmem⟩ := (fresh_mem_postingIds _ hfresh t d).1 hd
      exact ⟨doc, docAt_mem _ _ _ hdoc, hfresh.2.1 d doc hdoc, t, ht, hmem⟩
    · rintro ⟨doc, hdoc, hid, t, ht, hmem⟩
      obtain ⟨k, hk⟩ := mem_docAt _ doc hdoc
      have hkd : k = d := by rw [← hid]; exact (hfresh.2.1 k doc hk).symm
      subst hkd
      exact ⟨t, ht, (fresh_mem_postingIds _ hfresh t k).2 ⟨doc, hk, hmem⟩⟩
  refine ⟨_, _, hsearch, hdocs, hunion, ?_⟩
  intro hnone
  apply List.eq_nil_iff_forall_not_mem.2
  intro r hr
  obtain ⟨doc, hdoc, -, t, ht, hmem⟩ := (hdocs r.docID).1 (List.mem_map_of_mem _ hr)
  exact hnone t ht doc hdoc hmem

/-- C4 (frequency). On the index that `main` builds from supported files, for
every query, `search` returns, and every returned result belongs to the
stored document at position `docID`, whose id is `docID`, and carries as
frequency the sum, over the query's term list with repetitions, of the
number of occurrences of the term in that document. -/
theorem C4_frequency {S : Type} [LinearOrderedField S] (ln : S → S) (fs : Str → Option Str)
    (files : List Str) (query : Str) (hs : AllSupported files) :
    ∃ res indexer2, search ln (ingest fs files) query = some (res, indexer2) ∧
      ∀ r ∈ res, ∃ doc, docAt (ingest fs files).documents r.docID = some doc ∧
        doc.id = r.docID ∧
        r.frequency = ((queryTerms query).map (fun t => occurrenceCount t doc)).sum := by
  obtain ⟨hfresh, -⟩ := fresh_ingest fs files hs
  have hrange := fresh_candidates_inRange _ hfresh (queryIsAND query) (queryTerms query)
  obtain ⟨rows, inv2, hsearch, hrows, hfreq, -⟩ :=
    search_spec ln (ingest fs files) query hrange
  refine ⟨_, _, hsearch, ?_⟩
  intro r hr
  have hr2 : r ∈ rows := (mem_stdSort _ rows r).1 hr
  have hcand : r.docID ∈ candidateDocs (ingest fs files).invertedIndex (queryIsAND query)
      (queryTerms query) := by
    rw [← hrows]; exact List.mem_map_of_mem _ hr2
  obtain ⟨doc, hdoc⟩ := Option.isSome_iff_exists.1 (hrange _ hcand)
  refine ⟨doc, hdoc, hfresh.2.1 _ doc hdoc, ?_⟩
  rw [hfreq r hr2]
  congr 1
  apply List.map_congr_left
  intro t _
  exact fresh_recordedCount _ hfresh t r.docID doc hdoc

/-! ## The specification scenarios, evaluated -/

theorem rows_quick_slow {S : Type} [LinearOrderedField S] (ln : S → S) :
    scoreLoop ln demoIndex.documents ["quick".toList, "slow".toList] [0, 1]
        ([], demoIndex.invertedIndex) =
      some ([⟨0, 1, Double.add (Double.add (Double.real 0) (tfidfTerm ln 1 3 2 1))
                  (tfidfTerm ln 0 3 2 2)⟩,
             ⟨1, 1, Double.add (Double.add (Double.real 0) (tfidfTerm ln 0 4 2 2))
                  (tfidfTerm ln 1 4 2 2)⟩],
        demoIndexAfter.invertedIndex) := by
  rfl

theorem rows_fox {S : Type} [LinearOrderedField S] (ln : S → S) :
    scoreLoop ln demoIndex.documents ["fox".toList] [0, 1] ([], demoIndex.invertedIndex) =
      some ([⟨0, 1, Double.add (Double.real 0) (tfidfTerm ln 1 3 2 2)⟩,
             ⟨1, 2, Double.add (Double.real 0) (tfidfTerm ln 2 4 2 2)⟩],
        demoIndex.invertedIndex) := by
  rfl

theorem search_quick_slow {S : Type} [LinearOrderedField S] (ln : S → S) :
    search ln demoIndex "quick slow".toList =
      some (stdSort (fun a b => Double.gt a.tfidf b.tfidf)
        [⟨0, 1, Double.add (Double.add (Double.real 0) (tfidfTerm ln 1 3 2 1))
                  (tfidfTerm ln 0 3 2 2)⟩,
         ⟨1, 1, Double.add (Double.add (Double.real 0) (tfidfTerm ln 0 4 2 2))
                  (tfidfTerm ln 1 4 2 2)⟩],
        demoIndexAfter) := by
  rw [search_unfold]
  have hq : queryTerms "quick slow".toList = ["quick".toList, "slow".toList] := by decide
  have hA : queryIsAND "quick slow".toList = false := by decide
  have hc : candidateDocs demoIndex.invertedIndex false ["quick".toList, "slow".toList] = [0, 1] := by
    decide
  rw [hq, hA, hc, rows_quick_slow]
  rfl

theorem search_fox {S : Type} [LinearOrderedField S] (ln : S → S) :
    search ln demoIndex "fox".toList =
      some (stdSort (fun a b => Double.gt a.tfidf b.tfidf)
        [⟨0, 1, Double.add (Double.real 0) (tfidfTerm ln 1 3 2 2)⟩,
         ⟨1, 2, Double.add (Double.real 0) (tfidfTerm ln 2 4 2 2)⟩],
        demoIndex) := by
  rw [search_unfold]
  have hq : queryTerms "fox".toList = ["fox".toList] := by decide
  have hA : queryIsAND "fox".toList = false := by decide
  have hc : candidateDocs demoIndex.invertedIndex false ["fox".toList] = [0, 1] := by decide
  rw [hq, hA, hc, rows_fox]
  rfl

/-- The scores of the scenario queries over the reals: a term whose posting
list has as many entries as there are documents contributes `ln 1 = 0`. -/
theorem tfidfTerm_full (count tw : Int) (htw : tw ≠ 0) :
    tfidfTerm Real.log count tw 2 2 = Double.real (0 : ℝ) := by
  rw [tfidfTerm_real Real.log count tw 2 2 htw (by decide) (by decide)]
  norm_num

/-- C3 (score formula), evaluated at the scenario of the claim. On the fresh
index of Doc0 "the quick fox", Doc1 "the slow fox fox", the query "quick slow"
returns for document 1 the score `0`, whereas the formula of the claim gives
`(1/4) * ln 2`, which is not `0`: the frequency loop has inserted zero-count
entries, so `it->second.size()` is `2` for "slow" instead of its document
frequency `1`. -/
theorem C3_score_diverges :
    ∃ res indexer2, search Real.log demoIndex "quick slow".toList = some (res, indexer2) ∧
      ∃ r ∈ res, ∃ doc, r.docID = 1 ∧ docAt demoIndex.documents 1 = some doc ∧
        r.tfidf = Double.real 0 ∧
        specScore Real.log demoIndex.documents (queryTerms "quick slow".toList) doc =
          1 / 4 * Real.log 2 ∧
        r.tfidf ≠
          Double.real
            (specScore Real.log demoIndex.documents (queryTerms "quick slow".toList) doc) := by
  have hlog : Real.log 2 ≠ 0 := ne_of_gt (Real.log_pos one_lt_two)
  have hdoc : docAt demoIndex.documents 1 =
      some ⟨1, "d1.txt".toList, "the slow fox fox ".toList, 4⟩ := by decide
  have hq : queryTerms "quick slow".toList = ["quick".toList, "slow".toList] := by decide
  have hspec : specScore Real.log demoIndex.documents (queryTerms "quick slow".toList)
      ⟨1, "d1.txt".toList, "the slow fox fox ".toList, 4⟩ = 1 / 4 * Real.log 2 := by
    have h1 : documentFrequency demoIndex.documents "quick".toList = 1 := by decide
    have h2 : documentFrequency demoIndex.documents "slow".toList = 1 := by decide
    have h3 : occurrenceCount "quick".toList ⟨1, "d1.txt".toList, "the slow fox fox ".toList, 4⟩ = 0 := by
      decide
    have h4 : occurrenceCount "slow".toList ⟨1, "d1.txt".toList, "the slow fox fox ".toList, 4⟩ = 1 := by
      decide
    have h5 : demoIndex.documents.length = 2 := by decide
    rw [hq]
    simp only [specScore, List.map_cons, List.map_nil, List.sum_cons, List.sum_nil, h1, h2, h3,
      h4, h5]
    norm_num
  have hscore : Double.add (Double.add (Double.real 0) (tfidfTerm Real.log 0 4 2 2))
      (tfidfTerm Real.log 1 4 2 2) = Double.real (0 : ℝ) := by
    rw [tfidfTerm_full 0 4 (by decide), tfidfTerm_full 1 4 (by decide)]
    simp [Double.add]
  refine ⟨_, _, search_quick_slow Real.log, ?_⟩
  refine ⟨⟨1, 1, Double.add (Double.add (Double.real 0) (tfidfTerm Real.log 0 4 2 2))
      (tfidfTerm Real.log 1 4 2 2)⟩, ?_, _, rfl, hdoc, hscore, hspec, ?_⟩
  · rw [mem_stdSort]; simp
  · rw [hspec]
    show Double.add (Double.add (Double.real 0) (tfidfTerm Real.log 0 4 2 2))
      (tfidfTerm Real.log 1 4 2 2) ≠ Double.real (1 / 4 * Real.log 2)
    rw [hscore]
    intro h
    injection h with h
    apply hlog
    linarith

/-- C9 (queries are read-only), evaluated at a failing input. On the fresh
index of the scenario corpus the query "quick slow" returns with a changed
inverted index: the posting list of "quick" grows from one entry to two. -/
theorem C9_search_mutates_index :
    ∃ res indexer2, search Real.log demoIndex "quick slow".toList = some (res, indexer2) ∧
      indexer2 ≠ demoIndex ∧
      mapFind demoIndex.invertedIndex "quick".toList = some [(0, 1)] ∧
      mapFind indexer2.invertedIndex "quick".toList = some [(0, 1), (1, 0)] := by
  refine ⟨_, _, search_quick_slow Real.log, ?_, ?_, ?_⟩ <;> decide

/-- C7 (shared normalization), evaluated at a failing input. For the raw text
"quick and fox !!!" the query side keeps an empty term for the punctuation
token while ingestion drops it, and appending that token to the AND query
"quick and fox" changes the result from document 0 to nothing. -/
theorem C7_normalization_diverges :
    queryTerms "quick and fox !!!".toList = ["quick".toList, "fox".toList, []] ∧
    (ingestTerms "quick and fox !!!".toList).filter
        (fun w => decide (w ≠ "and".toList) && decide (w ≠ "or".toList)) =
      ["quick".toList, "fox".toList] ∧
    (search Real.log demoIndex "quick and fox".toList).map (fun r => r.1.map Result.docID) =
      some [0] ∧
    (search Real.log demoIndex "quick and fox !!!".toList).map
      (fun r => r.1.map Result.docID) = some [] := by
  refine ⟨?_, ?_, ?_, ?_⟩ <;> decide

/-! ## Ingestion of a file that cannot be opened -/

/-- C10 as stated fails: the path "missing.txt" has a supported extension and
cannot be opened in the scenario file system, yet `addDocument` on the empty
indexer adds a Document for it. -/
theorem C10_counterexample :
    (getParser "missing.txt".toList).isSome ∧ demoFs "missing.txt".toList = none ∧
    ¬ ((addDocument demoFs Indexer.empty "missing.txt".toList 0).documents =
        Indexer.empty.documents) ∧
    (addDocument demoFs Indexer.empty "missing.txt".toList 0).documents =
      [⟨0, "missing.txt".toList, [], 0⟩] := by
  refine ⟨?_, ?_, ?_, ?_⟩ <;> decide

/-- C10 (amended). For every index state, path with a supported extension and
id, if the file cannot be opened then `addDocument` appends exactly one
Document, with the given id and path, empty content and `totalWords = 0`,
and leaves the inverted index unchanged. -/
theorem C10_failed_extraction (fs : Str → Option Str) (indexer : Indexer) (filepath : Str)
    (id : Int) (hsup : (getParser filepath).isSome) (hfail : fs filepath = none) :
    addDocument fs indexer filepath id =
      { invertedIndex := indexer.invertedIndex
        documents := indexer.documents ++ [⟨id, filepath, [], 0⟩] } := by
  obtain ⟨p, hp⟩ := Option.isSome_iff_exists.1 hsup
  have hparse : p.parse fs filepath = [] := by
    rw [parse_dispatch]
    simp [TxtParser.parse, hfail]
  unfold addDocument
  simp only [hp, hparse]
  rfl

/-- Witness of C10 (amended) on the scenario index. -/
theorem C10_failed_extraction_witness :
    (getParser "missing.txt".toList).isSome ∧ demoFs "missing.txt".toList = none ∧
    addDocument demoFs demoIndex "missing.txt".toList 2 =
      { invertedIndex := demoIndex.invertedIndex
        documents := demoIndex.documents ++ [⟨2, "missing.txt".toList, [], 0⟩] } :=
  ⟨by decide, by decide,
    C10_failed_extraction demoFs demoIndex "missing.txt".toList 2 (by decide) (by decide)⟩

/-! ## Witnesses -/

/-- Witness of C1 on the scenario corpus, query "quick slow". -/
theorem C1_or_mode_witness :
    AllSupported demoFiles ∧
    (∀ tok ∈ extractWords "quick slow".toList, clean tok ≠ "and".toList) ∧
    ∃ res indexer2,
      search Real.log (ingest demoFs demoFiles) "quick slow".toList = some (res, indexer2) ∧
      (∀ d : Int, d ∈ res.map Result.docID ↔
        ∃ doc ∈ (ingest demoFs demoFiles).documents, doc.id = d ∧
          ∃ t ∈ queryTerms "quick slow".toList, t ∈ docTerms doc) :=
  ⟨by decide, by decide,
    (C1_or_mode Real.log demoFs demoFiles "quick slow".toList (by decide) (by decide)).imp
      (fun _ h => h.imp (fun _ h2 => ⟨h2.1, h2.2.1⟩))⟩

/-- Witness of C2: the scenario "quick and fox" of the specification returns
exactly one result, docID 0. -/
theorem C2_and_mode_witness :
    (∃ tok ∈ extractWords "quick and fox".toList, clean tok = "and".toList) ∧
    queryTerms "quick and fox".toList = ["quick".toList, "fox".toList] ∧
    InBounds demoIndex ∧
    (∃ res indexer2,
      search Real.log demoIndex "quick and fox".toList = some (res, indexer2) ∧
      ∀ d : Int, d ∈ res.map Result.docID ↔
        ∀ t ∈ queryTerms "quick and fox".toList, d ∈ postingIds demoIndex.invertedIndex t) ∧
    (search Real.log demoIndex "quick and fox".toList).map (fun r => r.1.map Result.docID) =
      some [0] := by
  have h := C2_and_mode Real.log demoIndex "quick and fox".toList (by decide) (by decide)
  obtain ⟨res, indexer2, hs⟩ := h.2 (by decide)
  exact ⟨by decide, by decide, by decide, ⟨res, indexer2, hs, (h.1 res indexer2 hs).1⟩,
    by decide⟩

/-- Witness of C4: the scenario "fox" of the specification has frequency 1
for document 0, frequency 2 for document 1, and score 0 for both. -/
theorem C4_frequency_witness :
    AllSupported demoFiles ∧
    (∃ res indexer2,
      search Real.log (ingest demoFs demoFiles) "fox".toList = some (res, indexer2) ∧
      ∀ r ∈ res, ∃ doc, docAt (ingest demoFs demoFiles).documents r.docID = some doc ∧
        doc.id = r.docID ∧
        r.frequency = ((queryTerms "fox".toList).map (fun t => occurrenceCount t doc)).sum) ∧
    ∃ res indexer2, search Real.log demoIndex "fox".toList = some (res, indexer2) ∧
      (res.map (fun r => (r.docID, r.frequency, r.tfidf))).Perm
        [(0, 1, Double.real (0 : ℝ)), (1, 2, Double.real (0 : ℝ))] := by
  refine ⟨by decide, C4_frequency Real.log demoFs demoFiles "fox".toList (by decide), ?_⟩
  refine ⟨_, _, search_fox Real.log, ?_⟩
  refine ((perm_stdSort _ _).map _).trans ?_
  simp only [List.map_cons, List.map_nil, tfidfTerm_full 1 3 (by decide),
    tfidfTerm_full 2 4 (by decide), double_add_real, add_zero]
  exact List.Perm.refl _

/-- Witness of C8: the scenario "AND" of the specification. -/
theorem C8_empty_terms_witness :
    (∀ tok ∈ extractWords "AND".toList,
      clean tok = "and".toList ∨ clean tok = "or".toList) ∧
    search Real.log demoIndex "AND".toList = some ([], demoIndex) :=
  ⟨by decide,
    (C8_empty_terms Real.log demoIndex "AND".toList (Or.inr (Or.inr (by decide)))).2⟩

/-! ## Normalization -/

theorem clean_foldl (w : Str) :
    ∀ acc : Str,
      w.foldl (fun result c =>
          if isalnum c || c = '_' then result ++ [tolower c] else result) acc =
        acc ++ (w.filter (fun c => isalnum c || decide (c = '_'))).map tolower := by
  induction w with
  | nil => intro acc; simp
  | cons c rest ih =>
    intro acc
    rw [List.foldl_cons, ih]
    by_cases h : (isalnum c || decide (c = '_')) = true
    · simp [h, List.filter_cons]
    · simp [h, List.filter_cons]

theorem clean_eq (w : Str) :
    clean w = (w.filter (fun c => isalnum c || decide (c = '_'))).map tolower := by
  unfold clean
  rw [clean_foldl]; simp

theorem toNat_ofNat_upper (n : Nat) (h1 : 65 ≤ n) (h2 : n ≤ 90) :
    (Char.ofNat (n + 32)).toNat = n + 32 := by
  interval_cases n <;> rfl

theorem isTermChar_tolower (c : Char) (h : (isalnum c || decide (c = '_')) = true) :
    isTermChar (tolower c) = true := by
  unfold tolower
  by_cases hu : 65 ≤ c.toNat ∧ c.toNat ≤ 90
  · simp only [hu, and_self, if_true]
    unfold isTermChar
    rw [toNat_ofNat_upper c.toNat hu.1 hu.2]
    simp only [Bool.or_eq_true, Bool.and_eq_true, decide_eq_true_eq]
    left; left; omega
  · simp only [hu, if_false]
    unfold isTermChar
    unfold isalnum at h
    simp only [Bool.or_eq_true, Bool.and_eq_true, decide_eq_true_eq] at h ⊢
    rcases h with h | h
    · left; omega
    · right; exact h

theorem underscore_toNat : ('_' : Char).toNat = 95 := rfl

theorem isTermChar_keep (c : Char) (h : isTermChar c = true) :
    (isalnum c || decide (c = '_')) = true ∧ tolower c = c := by
  unfold isTermChar at h
  simp only [Bool.or_eq_true, Bool.and_eq_true, decide_eq_true_eq] at h
  refine ⟨?_, ?_⟩
  · unfold isalnum
    simp only [Bool.or_eq_true, Bool.and_eq_true, decide_eq_true_eq]
    rcases h with (h | h) | h
    · left; right; exact h
    · left; left; left; exact h
    · right; exact h
  · unfold tolower
    have hn : ¬ (65 ≤ c.toNat ∧ c.toNat ≤ 90) := by
      rcases h with (h | h) | h
      · omega
      · omega
      · rw [h, underscore_toNat]; omega
    simp only [hn, if_false]

theorem clean_of_termChars (w : Str) (h : ∀ c ∈ w, isTermChar c = true) : clean w = w := by
  rw [clean_eq]
  have hf : w.filter (fun c => isalnum c || decide (c = '_')) = w :=
    List.filter_eq_self.2 (fun c hc => (isTermChar_keep c (h c hc)).1)
  rw [hf]
  conv_rhs => rw [← List.map_id w]
  apply List.map_congr_left
  intro c hc
  exact (isTermChar_keep c (h c hc)).2

theorem termChars_clean (w : Str) : ∀ c ∈ clean w, isTermChar c = true := by
  intro c hc
  rw [clean_eq] at hc
  obtain ⟨a, ha, rfl⟩ := List.mem_map.1 hc
  exact isTermChar_tolower a (List.mem_filter.1 ha).2

/-- C17 (normalization idempotence). For every string `w`, cleaning the
cleaned string gives the cleaned string again; a cleaned string consists of
lowercase letters, digits and underscores only, and `clean` leaves every
string of such characters unchanged. -/
theorem C17_clean_idempotent :
    (∀ w : Str, clean (clean w) = clean w) ∧
    (∀ w : Str, ∀ c ∈ clean w, isTermChar c = true) ∧
    (∀ w : Str, (∀ c ∈ w, isTermChar c = true) → clean w = w) :=
  ⟨fun w => clean_of_termChars (clean w) (termChars_clean w), termChars_clean,
    clean_of_termChars⟩

/-- Witness of C17 on a mixed-case word with punctuation. -/
theorem C17_clean_idempotent_witness :
    clean "Hello_World-42!".toList = "hello_world42".toList ∧
    clean (clean "Hello_World-42!".toList) = clean "Hello_World-42!".toList ∧
    clean "hello_world42".toList = "hello_world42".toList :=
  ⟨by decide, C17_clean_idempotent.1 _, C17_clean_idempotent.2.2 _ (by decide)⟩

/-! ## The parser factory -/

theorem suffixOf_eq_iff (filename s : Str) :
    (filename.length ≥ s.length ∧ suffixOf filename s.length = s) ↔ s <:+ filename := by
  unfold suffixOf
  constructor
  · rintro ⟨_, h⟩
    rw [← h]
    exact List.drop_suffix _ _
  · rintro ⟨t, rfl⟩
    refine ⟨by simp, ?_⟩
    simp

theorem suffixOf_length (filename : Str) (n : Nat) (h : filename.length ≥ n) :
    (suffixOf filename n).length = n := by
  unfold suffixOf
  simp only [List.length_drop]
  omega

theorem suffixOf_ne_of_length (filename s : Str) (n : Nat) (h : filename.length ≥ n)
    (hs : s.length ≠ n) : suffixOf filename n ≠ s := by
  intro he
  have := suffixOf_length filename n h
  rw [he] at this
  exact hs this

theorem isSome_pick2 (c a b : Prop) [Decidable c] [Decidable a] [Decidable b] :
    ((if c then (if a then some FileParser.TxtParser
        else if b then some FileParser.CodeParser else none) else none :
      Option FileParser)).isSome ↔ c ∧ (a ∨ b) := by
  by_cases hc : c <;> by_cases ha : a <;> by_cases hb : b <;> simp [hc, ha, hb]

theorem isSome_pick1 (c a : Prop) [Decidable c] [Decidable a] :
    ((if c then (if a then some FileParser.CodeParser else none) else none :
      Option FileParser)).isSome ↔ c ∧ a := by
  by_cases hc : c <;> by_cases ha : a <;> simp [hc, ha]

theorem isSome_firstOf (x y z : Option FileParser) :
    (match x with
      | some p => some p
      | none =>
        match y with
        | some p => some p
        | none => z).isSome ↔ x.isSome ∨ y.isSome ∨ z.isSome := by
  cases x <;> cases y <;> simp

theorem getParser_isSome_iff (f : Str) :
    (getParser f).isSome ↔
      (".txt".toList <:+ f ∨ ".cpp".toList <:+ f ∨ ".py".toList <:+ f ∨
        ".js".toList <:+ f ∨ ".java".toList <:+ f) := by
  have e1 : (f.length ≥ 4 ∧ suffixOf f 4 = ".txt".toList) ↔ ".txt".toList <:+ f :=
    suffixOf_eq_iff f ".txt".toList
  have e2 : (f.length ≥ 4 ∧ suffixOf f 4 = ".cpp".toList) ↔ ".cpp".toList <:+ f :=
    suffixOf_eq_iff f ".cpp".toList
  have e3 : (f.length ≥ 3 ∧ suffixOf f 3 = ".py".toList) ↔ ".py".toList <:+ f :=
    suffixOf_eq_iff f ".py".toList
  have e4 : (f.length ≥ 3 ∧ suffixOf f 3 = ".js".toList) ↔ ".js".toList <:+ f :=
    suffixOf_eq_iff f ".js".toList
  have e5 : (f.length ≥ 5 ∧ suffixOf f 5 = ".java".toList) ↔ ".java".toList <:+ f :=
    suffixOf_eq_iff f ".java".toList
  have n1 : f.length ≥ 4 → suffixOf f 4 ≠ ".h".toList :=
    fun h => suffixOf_ne_of_length f _ 4 h (by decide)
  have n2 : f.length ≥ 5 → suffixOf f 5 ≠ ".cs".toList :=
    fun h => suffixOf_ne_of_length f _ 5 h (by decide)
  rw [← e1, ← e2, ← e3, ← e4, ← e5]
  unfold getParser
  refine (isSome_firstOf _ _ _).trans ?_
  rw [isSome_pick2, isSome_pick1, isSome_pick1]
  constructor
  · rintro (⟨h, h1 | h1 | h1⟩ | ⟨h, h1 | h1⟩ | ⟨h, h1 | h1⟩)
    · exact Or.inl ⟨h, h1⟩
    · exact Or.inr (Or.inl ⟨h, h1⟩)
    · exact absurd h1 (n1 h)
    · exact Or.inr (Or.inr (Or.inl ⟨h, h1⟩))
    · exact Or.inr (Or.inr (Or.inr (Or.inl ⟨h, h1⟩)))
    · exact Or.inr (Or.inr (Or.inr (Or.inr ⟨h, h1⟩)))
    · exact absurd h1 (n2 h)
  · rintro (⟨h, h1⟩ | ⟨h, h1⟩ | ⟨h, h1⟩ | ⟨h, h1⟩ | ⟨h, h1⟩)
    · exact Or.inl ⟨h, Or.inl h1⟩
    · exact Or.inl ⟨h, Or.inr (Or.inl h1)⟩
    · exact Or.inr (Or.inl ⟨h, Or.inl h1⟩)
    · exact Or.inr (Or.inl ⟨h, Or.inr h1⟩)
    · exact Or.inr (Or.inr ⟨h, Or.inl h1⟩)

/-- C19 (supported file types). For every filename, `getParser` yields a
parser exactly when the filename ends with ".txt", ".cpp", ".py", ".js" or
".java"; a filename ending with ".h" or ".cs" gets no parser, so the scanner
does not list it and `addDocument` leaves the indexer as it was. -/
theorem C19_supported_types (filename : Str) :
    ((getParser filename).isSome ↔
      (".txt".toList <:+ filename ∨ ".cpp".toList <:+ filename ∨ ".py".toList <:+ filename ∨
        ".js".toList <:+ filename ∨ ".java".toList <:+ filename)) ∧
    ((".h".toList <:+ filename ∨ ".cs".toList <:+ filename) →
      getParser filename = none ∧
      (∀ files : List Str, listFile filename files = files) ∧
      ∀ (fs : Str → Option Str) (indexer : Indexer) (id : Int),
        addDocument fs indexer filename id = indexer) := by
  refine ⟨getParser_isSome_iff filename, ?_⟩
  intro h
  have hnone : getParser filename = none := by
    cases hg : getParser filename with
    | none => rfl
    | some p =>
      have hs : (getParser filename).isSome := by simp [hg]
      have h5 := (getParser_isSome_iff filename).1 hs
      exfalso
      rcases h with h | h <;> rcases h5 with h5 | h5 | h5 | h5 | h5
      all_goals
        exact absurd (List.suffix_of_suffix_length_le h h5 (by decide)) (by decide)
  refine ⟨hnone, ?_, ?_⟩
  · intro files; simp [listFile, hnone]
  · intro fs indexer id; simp [addDocument, hnone]

/-- Witness of C19: a header file and a C# file get no parser, the five
supported extensions do. -/
theorem C19_supported_types_witness :
    getParser "engine.h".toList = none ∧ getParser "Program.cs".toList = none ∧
    listFile "engine.h".toList [] = [] ∧
    addDocument demoFs demoIndex "engine.h".toList 2 = demoIndex ∧
    getParser "a.txt".toList = some FileParser.TxtParser ∧
    getParser "a.cpp".toList = some FileParser.CodeParser ∧
    getParser "a.py".toList = some FileParser.CodeParser ∧
    getParser "a.js".toList = some FileParser.CodeParser ∧
    getParser "A.java".toList = some FileParser.CodeParser :=
  ⟨((C19_supported_types "engine.h".toList).2 (Or.inl (by decide))).1,
    ((C19_supported_types "Program.cs".toList).2 (Or.inr (by decide))).1,
    by decide, by decide, by decide, by decide, by decide, by decide, by decide⟩

/-! ## Searches that insert nothing -/

/-- The frequency loop leaves the index as it is when the document already
has an entry in the posting list of every term that is found. -/
theorem freqLoop_fixed (d : Int) (inv : InvertedIndex) :
    ∀ (ws : List Str) (acc : Int),
      (∀ w ∈ ws, ∀ p, mapFind inv w = some p → (mapFind p d).isSome) →
      (freqLoop d ws (acc, inv)).2 = inv := by
  intro ws
  induction ws with
  | nil => intro acc _; rfl
  | cons w rest ih =>
    intro acc h
    simp only [freqLoop]
    cases hp : mapFind inv w with
    | none => exact ih acc (fun x hx => h x (List.mem_cons_of_mem _ hx))
    | some p =>
      simp only
      rw [touch_eq_self inv w p d hp (h w (by simp) p hp)]
      exact ih _ (fun x hx => h x (List.mem_cons_of_mem _ hx))

theorem tfidfLoop_fixed {S : Type} [LinearOrderedField S] (ln : S → S)
    (documents : List Document) (d : Int) (inv : InvertedIndex) :
    ∀ (ws : List Str) (acc : Double S) (st2 : Double S × InvertedIndex),
      (∀ w ∈ ws, ∀ p, mapFind inv w = some p → (mapFind p d).isSome) →
      tfidfLoop ln documents d ws (acc, inv) = some st2 → st2.2 = inv := by
  intro ws
  induction ws with
  | nil =>
    intro acc st2 _ h
    simp only [tfidfLoop, Option.some.injEq] at h
    rw [← h]
  | cons w rest ih =>
    intro acc st2 h hs
    have hrest : ∀ x ∈ rest, ∀ p, mapFind inv x = some p → (mapFind p d).isSome :=
      fun x hx => h x (List.mem_cons_of_mem _ hx)
    simp only [tfidfLoop] at hs
    cases hp : mapFind inv w with
    | none =>
      simp only [hp] at hs
      exact ih acc st2 hrest hs
    | some p =>
      simp only [hp] at hs
      split_ifs at hs with hdf
      · cases hdoc : docAt documents d with
        | none => simp [hdoc] at hs
        | some doc =>
          simp only [hdoc] at hs
          rw [touch_eq_self inv w p d hp (h w (by simp) p hp)] at hs
          exact ih _ st2 hrest hs
      · exact ih acc st2 hrest hs

theorem scoreLoop_fixed {S : Type} [LinearOrderedField S] (ln : S → S)
    (documents : List Document) (ws : List Str) (inv : InvertedIndex) :
    ∀ (cand : List Int) (res : List (Result S)) (st2 : List (Result S) × InvertedIndex),
      (∀ d ∈ cand, ∀ w ∈ ws, ∀ p, mapFind inv w = some p → (mapFind p d).isSome) →
      scoreLoop ln documents ws cand (res, inv) = some st2 → st2.2 = inv := by
  intro cand
  induction cand with
  | nil =>
    intro res st2 _ h
    simp only [scoreLoop, Option.some.injEq] at h
    rw [← h]
  | cons d rest ih =>
    intro res st2 h hs
    simp only [scoreLoop] at hs
    have hf := freqLoop_fixed d inv ws 0 (h d (by simp))
    rw [hf] at hs
    cases ht : tfidfLoop ln documents d ws (Double.real 0, inv) with
    | none => simp [ht] at hs
    | some t =>
      simp only [ht] at hs
      have ht2 := tfidfLoop_fixed ln documents d inv ws (Double.real 0) t (h d (by simp)) ht
      rw [ht2] at hs
      exact ih _ st2 (fun x hx => h x (List.mem_cons_of_mem _ hx)) hs

/-- C18 (AND-mode searches do not touch the index). For every index state
and every query with a token normalizing to "and": whenever `search`
returns, the indexer it leaves behind (inverted index and document list) is
the one it started from; and `search` does return when the ids stored in the
posting lists are valid positions of the document vector. -/
theorem C18_and_readonly {S : Type} [LinearOrderedField S] (ln : S → S) (indexer : Indexer)
    (query : Str) (hand : ∃ tok ∈ extractWords query, clean tok = "and".toList) :
    (∀ res indexer2, search ln indexer query = some (res, indexer2) → indexer2 = indexer) ∧
    (InBounds indexer → ∃ res, search ln indexer query = some (res, indexer)) := by
  have hA : queryIsAND query = true := (queryIsAND_iff query).2 hand
  have hkeep : ∀ res indexer2, search ln indexer query = some (res, indexer2) →
      indexer2 = indexer := by
    intro res indexer2 hs
    rw [search_unfold, hA] at hs
    cases hl : scoreLoop ln indexer.documents (queryTerms query)
        (candidateDocs indexer.invertedIndex true (queryTerms query))
        ([], indexer.invertedIndex) with
    | none => simp [hl] at hs
    | some st =>
      simp only [hl, Option.map_some', Option.some.injEq, Prod.mk.injEq] at hs
      have hfix : st.2 = indexer.invertedIndex := by
        refine scoreLoop_fixed ln _ _ _ _ [] st ?_ hl
        intro d hd w hw p hp
        have hne : queryTerms query ≠ [] := List.ne_nil_of_mem hw
        have hmem := (mem_candidateDocs_and _ _ hne d).1 hd w hw
        rw [mapFind_isSome_iff]
        simpa [postingIds, hp] using hmem
      rw [← hs.2, hfix]
  refine ⟨hkeep, ?_⟩
  intro hb
  obtain ⟨rows, inv2, hs, -, -, -⟩ :=
    search_spec ln indexer query (inBounds_candidates indexer hb _ _)
  have := hkeep _ _ hs
  rw [this] at hs
  exact ⟨_, hs⟩

/-- Witness of C18: the scenario "quick and fox" leaves the scenario index as
it was. -/
theorem C18_and_readonly_witness :
    (∃ tok ∈ extractWords "quick and fox".toList, clean tok = "and".toList) ∧
    InBounds demoIndex ∧
    ∃ res, search Real.log demoIndex "quick and fox".toList = some (res, demoIndex) :=
  ⟨by decide, by decide,
    (C18_and_readonly Real.log demoIndex "quick and fox".toList (by decide)).2 (by decide)⟩

/-! ## AND against OR -/

/-- C13 (AND is contained in OR). For every index state, an AND query and an
OR query with the same term list: whenever both searches, run on that same
state, return, every docID returned for the AND query is returned for the OR
query; and both do return when the ids stored in the posting lists are valid
positions of the document vector. -/
theorem C13_and_subset_or {S : Type} [LinearOrderedField S] (ln : S → S) (indexer : Indexer)
    (andQuery orQuery : Str)
    (hand : ∃ tok ∈ extractWords andQuery, clean tok = "and".toList)
    (hor : ∀ tok ∈ extractWords orQuery, clean tok ≠ "and".toList)
    (hterms : queryTerms andQuery = queryTerms orQuery) :
    (∀ resAnd ixAnd resOr ixOr,
      search ln indexer andQuery = some (resAnd, ixAnd) →
      search ln indexer orQuery = some (resOr, ixOr) →
      ∀ d ∈ resAnd.map Result.docID, d ∈ resOr.map Result.docID) ∧
    (InBounds indexer →
      (∃ resAnd ixAnd, search ln indexer andQuery = some (resAnd, ixAnd)) ∧
      ∃ resOr ixOr, search ln indexer orQuery = some (resOr, ixOr)) := by
  have hA : queryIsAND andQuery = true := (queryIsAND_iff andQuery).2 hand
  have hO : queryIsAND orQuery = false := by
    cases h : queryIsAND orQuery with
    | false => rfl
    | true =>
      obtain ⟨tok, h1, h2⟩ := (queryIsAND_iff orQuery).1 h
      exact absurd h2 (hor tok h1)
  refine ⟨?_, ?_⟩
  · intro resAnd ixAnd resOr ixOr h1 h2 d hd
    obtain ⟨p1, -⟩ := search_returned ln indexer andQuery resAnd ixAnd h1
    obtain ⟨p2, -⟩ := search_returned ln indexer orQuery resOr ixOr h2
    rw [p1.mem_iff, hA] at hd
    rw [p2.mem_iff, hO, ← hterms]
    exact (mem_candidateDocs_or _ _ d).2 (candidate_mem_posting _ true _ d hd)
  · intro hb
    obtain ⟨_, _, hs1, -, -, -⟩ :=
      search_spec ln indexer andQuery (inBounds_candidates indexer hb _ _)
    obtain ⟨_, _, hs2, -, -, -⟩ :=
      search_spec ln indexer orQuery (inBounds_candidates indexer hb _ _)
    exact ⟨⟨_, _, hs1⟩, ⟨_, _, hs2⟩⟩

/-- Witness of C13 on the scenario index: "quick and fox" against "quick fox". -/
theorem C13_and_subset_or_witness :
    (∃ tok ∈ extractWords "quick and fox".toList, clean tok = "and".toList) ∧
    (∀ tok ∈ extractWords "quick fox".toList, clean tok ≠ "and".toList) ∧
    queryTerms "quick and fox".toList = queryTerms "quick fox".toList ∧
    (search Real.log demoIndex "quick and fox".toList).map (fun r => r.1.map Result.docID) =
      some [0] ∧
    ∀ resAnd ixAnd resOr ixOr,
      search Real.log demoIndex "quick and fox".toList = some (resAnd, ixAnd) →
      search Real.log demoIndex "quick fox".toList = some (resOr, ixOr) →
      ∀ d ∈ resAnd.map Result.docID, d ∈ resOr.map Result.docID :=
  ⟨by decide, by decide, by decide, by decide,
    (C13_and_subset_or Real.log demoIndex "quick and fox".toList "quick fox".toList
      (by decide) (by decide) (by decide)).1⟩

/-! ## Entries of the containers -/

section RawLemmas
variable {K V : Type}

theorem mem_mapInsertNew (less : K → K → Bool) (k : K) (v : V) (e : K × V) :
    ∀ m : List (K × V), e ∈ mapInsertNew less k v m ↔ e = (k, v) ∨ e ∈ m := by
  intro m
  induction m with
  | nil => simp [mapInsertNew]
  | cons a rest ih =>
    obtain ⟨k1, v1⟩ := a
    simp only [mapInsertNew]
    split_ifs
    · simp
    · simp only [List.mem_cons, ih]; tauto

theorem keys_mapInsertNew_perm (less : K → K → Bool) (k : K) (v : V) :
    ∀ m : List (K × V), ((mapInsertNew less k v m).map Prod.fst).Perm (k :: m.map Prod.fst) := by
  intro m
  induction m with
  | nil => simp [mapInsertNew]
  | cons a rest ih =>
    obtain ⟨k1, v1⟩ := a
    simp only [mapInsertNew]
    split_ifs
    · simp
    · simp only [List.map_cons]
      exact (List.Perm.cons k1 ih).trans (List.Perm.swap k k1 _)

theorem mem_mapAssign [DecidableEq K] (k : K) (v : V) (e : K × V) :
    ∀ m : List (K × V), e ∈ mapAssign k v m → e ∈ m ∨ e = (k, v) := by
  intro m
  induction m with
  | nil => simp [mapAssign]
  | cons a rest ih =>
    obtain ⟨k1, v1⟩ := a
    simp only [mapAssign]
    split_ifs with h
    · subst h
      simp only [List.mem_cons]
      tauto
    · simp only [List.mem_cons]
      rintro (h1 | h1)
      · exact Or.inl (Or.inl h1)
      · rcases ih h1 with h2 | h2
        · exact Or.inl (Or.inr h2)
        · exact Or.inr h2

theorem keys_mapAssign [DecidableEq K] (k : K) (v : V) :
    ∀ m : List (K × V), (mapAssign k v m).map Prod.fst = m.map Prod.fst := by
  intro m
  induction m with
  | nil => simp [mapAssign]
  | cons a rest ih =>
    obtain ⟨k1, v1⟩ := a
    simp only [mapAssign]
    split_ifs with h
    · simp
    · simp [ih]

theorem mapFind_eq_none_iff [DecidableEq K] (k : K) (m : List (K × V)) :
    mapFind m k = none ↔ k ∉ m.map Prod.fst := by
  rw [← mapFind_isSome_iff]
  cases mapFind m k <;> simp

theorem mapFind_of_mem_nodup [DecidableEq K] (k : K) (v : V) :
    ∀ m : List (K × V), (m.map Prod.fst).Nodup → (k, v) ∈ m → mapFind m k = some v := by
  intro m
  induction m with
  | nil => simp
  | cons a rest ih =>
    obtain ⟨k1, v1⟩ := a
    intro hn hm
    simp only [List.map_cons, List.nodup_cons] at hn
    rcases List.mem_cons.1 hm with h | h
    · simp only [Prod.mk.injEq] at h
      simp [mapFind, h.1, h.2]
    · have hk : k1 ≠ k := by
        rintro rfl
        exact hn.1 (List.mem_map_of_mem Prod.fst h)
      simp only [mapFind, hk, if_false]
      exact ih hn.2 h

end RawLemmas

theorem mapAssign_insertNew {K V : Type} [DecidableEq K] (less : K → K → Bool) (k : K)
    (v0 v : V) :
    ∀ m : List (K × V), mapFind m k = none →
      mapAssign k v (mapInsertNew less k v0 m) = mapInsertNew less k v m := by
  intro m
  induction m with
  | nil => intro _; simp [mapInsertNew, mapAssign]
  | cons a rest ih =>
    obtain ⟨k1, v1⟩ := a
    intro h
    have hk : k1 ≠ k := by
      rintro rfl
      simp [mapFind] at h
    simp only [mapFind, hk, if_false] at h
    simp only [mapInsertNew]
    split_ifs
    · simp [mapAssign]
    · simp [mapAssign, hk, ih h]

/-- The statement `invertedIndex[word][id]++` either rewrites the posting list
found under `word`, or inserts a posting list for `word`; in both cases the
new posting list is the old one (empty if there was none) with the entry for
`id` created if need be and incremented. -/
theorem recordWord_cases (inv : InvertedIndex) (w : Str) (id : Int) :
    (∃ p, mapFind inv w = some p ∧
      recordWord inv w id =
        mapAssign w (mapAssign id ((postingIndex p id).1 + 1) (postingIndex p id).2) inv) ∨
    (mapFind inv w = none ∧
      recordWord inv w id =
        mapInsertNew strLess w
          (mapAssign id ((postingIndex [] id).1 + 1) (postingIndex [] id).2) inv) := by
  cases h : mapFind inv w with
  | some p =>
    refine Or.inl ⟨p, rfl, ?_⟩
    unfold recordWord
    simp [h]
  | none =>
    refine Or.inr ⟨rfl, ?_⟩
    unfold recordWord
    simp only [h, mapFind_insertNew_self strLess w [] inv h, Option.getD_some]
    exact mapAssign_insertNew strLess w [] _ inv h

theorem mem_postingIndex_snd (p : Posting) (d : Int) (x : Int × Int)
    (h : x ∈ (postingIndex p d).2) : x ∈ p ∨ x = (d, 0) := by
  unfold postingIndex at h
  cases hf : mapFind p d with
  | some v => simp only [hf] at h; exact Or.inl h
  | none =>
    simp only [hf] at h
    rcases (mem_mapInsertNew intLess d 0 x p).1 h with h1 | h1
    · exact Or.inr h1
    · exact Or.inl h1

theorem keys_postingIndex_nodup (p : Posting) (d : Int) (h : (p.map Prod.fst).Nodup) :
    ((postingIndex p d).2.map Prod.fst).Nodup := by
  unfold postingIndex
  cases hf : mapFind p d with
  | some v => exact h
  | none =>
    simp only
    rw [(keys_mapInsertNew_perm intLess d 0 p).nodup_iff]
    exact List.nodup_cons.2 ⟨(mapFind_eq_none_iff d p).1 hf, h⟩

theorem postingIndex_snd_has (p : Posting) (d : Int) :
    (mapFind (postingIndex p d).2 d).isSome := by
  rw [mapFind_postingIndex_snd]
  cases h : mapFind p d <;> simp

theorem postingIndex_snd_ne_nil (p : Posting) (d : Int) : (postingIndex p d).2 ≠ [] := by
  intro h
  have := postingIndex_snd_has p d
  rw [h] at this
  simp [mapFind] at this

theorem mapAssign_ne_nil {K V : Type} [DecidableEq K] (k : K) (v : V) (m : List (K × V))
    (h : m ≠ []) : mapAssign k v m ≠ [] := by
  intro he
  have := congrArg (List.map Prod.fst) he
  rw [keys_mapAssign] at this
  simp only [List.map_nil, List.map_eq_nil_iff] at this
  exact h this

/-! ## Well-formed posting lists -/

theorem entriesOK_mono (good good2 : Int → Prop) (inv : InvertedIndex)
    (h : EntriesOK good inv) (hg : ∀ d, good d → good2 d) : EntriesOK good2 inv :=
  fun e he => ⟨(h e he).1, (h e he).2.1, fun x hx => hg _ ((h e he).2.2 x hx)⟩

/-- An access `it->second[docID]` through a found iterator keeps the posting
lists well formed when `docID` is a good id. -/
theorem entriesOK_touch (good : Int → Prop) (inv : InvertedIndex) (w : Str) (p : Posting)
    (d : Int) (h : EntriesOK good inv) (hd : good d) (hp : mapFind inv w = some p) :
    EntriesOK good (mapAssign w (postingIndex p d).2 inv) := by
  intro e he
  rcases mem_mapAssign w _ e inv he with h1 | h1
  · exact h e h1
  · subst h1
    obtain ⟨-, hn, hg⟩ := h (w, p) (mapFind_mem w p inv hp)
    refine ⟨postingIndex_snd_ne_nil p d, keys_postingIndex_nodup p d hn, ?_⟩
    intro x hx
    rcases mem_postingIndex_snd p d x hx with h2 | h2
    · exact hg x h2
    · subst h2; exact hd

theorem bumped_ok (good : Int → Prop) (p : Posting) (id : Int)
    (hn : (p.map Prod.fst).Nodup) (hg : ∀ x ∈ p, good x.1) (hd : good id) :
    mapAssign id ((postingIndex p id).1 + 1) (postingIndex p id).2 ≠ [] ∧
    ((mapAssign id ((postingIndex p id).1 + 1) (postingIndex p id).2).map Prod.fst).Nodup ∧
    ∀ x ∈ mapAssign id ((postingIndex p id).1 + 1) (postingIndex p id).2, good x.1 := by
  refine ⟨mapAssign_ne_nil _ _ _ (postingIndex_snd_ne_nil p id), ?_, ?_⟩
  · rw [keys_mapAssign]
    exact keys_postingIndex_nodup p id hn
  · intro x hx
    rcases mem_mapAssign id _ x _ hx with h2 | h2
    · rcases mem_postingIndex_snd p id x h2 with h3 | h3
      · exact hg x h3
      · subst h3; exact hd
    · subst h2; exact hd

/-- The statement `invertedIndex[word][id]++` keeps the posting lists well
formed when `id` is a good id. -/
theorem entriesOK_recordWord (good : Int → Prop) (inv : InvertedIndex) (w : Str) (id : Int)
    (h : EntriesOK good inv) (hd : good id) : EntriesOK good (recordWord inv w id) := by
  rcases recordWord_cases inv w id with ⟨p, hp, heq⟩ | ⟨-, heq⟩
  · rw [heq]
    intro e he
    rcases mem_mapAssign w _ e inv he with h1 | h1
    · exact h e h1
    · subst h1
      obtain ⟨-, hn, hg⟩ := h (w, p) (mapFind_mem w p _ hp)
      exact bumped_ok good p id hn hg hd
  · rw [heq]
    intro e he
    rcases (mem_mapInsertNew strLess w _ e inv).1 he with h1 | h1
    · subst h1
      exact bumped_ok good [] id (by simp) (by simp) hd
    · exact h e h1

theorem entriesOK_recordWords (good : Int → Prop) (id : Int) (hd : good id) :
    ∀ (ws : List Str) (st : InvertedIndex × Int), EntriesOK good st.1 →
      EntriesOK good (recordWords id ws st).1 := by
  intro ws
  induction ws with
  | nil => intro st h; exact h
  | cons w rest ih =>
    intro st h
    simp only [recordWords]
    exact ih _ (entriesOK_recordWord good st.1 w id h hd)

theorem entriesOK_freqLoop (good : Int → Prop) (d : Int) (hd : good d) :
    ∀ (ws : List Str) (st : Int × InvertedIndex), EntriesOK good st.2 →
      EntriesOK good (freqLoop d ws st).2 := by
  intro ws
  induction ws with
  | nil => intro st h; exact h
  | cons w rest ih =>
    intro st h
    simp only [freqLoop]
    cases hp : mapFind st.2 w with
    | none => exact ih st h
    | some p => exact ih _ (entriesOK_touch good st.2 w p d h hd hp)

theorem entriesOK_tfidfLoop {S : Type} [LinearOrderedField S] (ln : S → S)
    (documents : List Document) (good : Int → Prop) (d : Int) (hd : good d) :
    ∀ (ws : List Str) (st st2 : Double S × InvertedIndex), EntriesOK good st.2 →
      tfidfLoop ln documents d ws st = some st2 → EntriesOK good st2.2 := by
  intro ws
  induction ws with
  | nil =>
    intro st st2 h hs
    simp only [tfidfLoop, Option.some.injEq] at hs
    rw [← hs]; exact h
  | cons w rest ih =>
    intro st st2 h hs
    simp only [tfidfLoop] at hs
    cases hp : mapFind st.2 w with
    | none =>
      simp only [hp] at hs
      exact ih st st2 h hs
    | some p =>
      simp only [hp] at hs
      split_ifs at hs with hdf
      · cases hdoc : docAt documents d with
        | none => simp [hdoc] at hs
        | some doc =>
          simp only [hdoc] at hs
          exact ih _ st2 (entriesOK_touch good st.2 w p d h hd hp) hs
      · exact ih st st2 h hs

theorem entriesOK_scoreLoop {S : Type} [LinearOrderedField S] (ln : S → S)
    (documents : List Document) (ws : List Str) (good : Int → Prop) :
    ∀ (cand : List Int) (st st2 : List (Result S) × InvertedIndex),
      (∀ d ∈ cand, good d) → EntriesOK good st.2 →
      scoreLoop ln documents ws cand st = some st2 → EntriesOK good st2.2 := by
  intro cand
  induction cand with
  | nil =>
    intro st st2 _ h hs
    simp only [scoreLoop, Option.some.injEq] at hs
    rw [← hs]; exact h
  | cons d rest ih =>
    intro st st2 hc h hs
    simp only [scoreLoop] at hs
    cases ht : tfidfLoop ln documents d ws (Double.real 0, (freqLoop d ws (0, st.2)).2) with
    | none => simp [ht] at hs
    | some t =>
      simp only [ht] at hs
      have h1 := entriesOK_freqLoop good d (hc d (by simp)) ws (0, st.2) h
      have h2 := entriesOK_tfidfLoop ln documents good d (hc d (by simp)) ws _ t h1 ht
      exact ih _ st2 (fun x hx => hc x (List.mem_cons_of_mem _ hx)) h2 hs

/-- Every candidate is an id stored in some posting list, hence good. -/
theorem entriesOK_candidates (good : Int → Prop) (inv : InvertedIndex)
    (h : EntriesOK good inv) (isAND : Bool) (ws : List Str) :
    ∀ d ∈ candidateDocs inv isAND ws, good d := by
  intro d hd
  obtain ⟨w, -, hw⟩ := candidate_mem_posting inv isAND ws d hd
  unfold postingIds at hw
  cases hp : mapFind inv w with
  | none => simp [hp] at hw
  | some p =>
    simp only [hp, Option.getD_some, List.mem_map] at hw
    obtain ⟨x, hx, rfl⟩ := hw
    exact (h (w, p) (mapFind_mem w p inv hp)).2.2 x hx

theorem sound_inBounds (indexer : Indexer) (h : Sound indexer) : InBounds indexer := by
  intro e he x hx
  obtain ⟨doc, hdoc, -, -⟩ := (h e he).2.2 x hx
  simp [hdoc]

/-- A search keeps the document list and keeps the index sound. -/
theorem sound_search {S : Type} [LinearOrderedField S] (ln : S → S) (indexer : Indexer)
    (query : Str) (h : Sound indexer) :
    ∃ res indexer2, search ln indexer query = some (res, indexer2) ∧
      indexer2.documents = indexer.documents ∧ Sound indexer2 := by
  obtain ⟨rows, inv2, hs, -, -, -⟩ :=
    search_spec ln indexer query (inBounds_candidates indexer (sound_inBounds indexer h) _ _)
  refine ⟨_, _, hs, rfl, ?_⟩
  have hu := search_unfold ln indexer query
  rw [hs] at hu
  cases hl : scoreLoop ln indexer.documents (queryTerms query)
      (candidateDocs indexer.invertedIndex (queryIsAND query) (queryTerms query))
      ([], indexer.invertedIndex) with
  | none => simp [hl] at hu
  | some st =>
    simp only [hl, Option.map_some', Option.some.injEq, Prod.mk.injEq, Indexer.mk.injEq,
      and_true] at hu
    have := entriesOK_scoreLoop ln indexer.documents (queryTerms query) _ _
      ([], indexer.invertedIndex) st (entriesOK_candidates _ _ h _ _) h hl
    unfold Sound
    simp only
    rw [hu.2]
    exact this

/-- Every run of searches from a sound index returns and ends in a sound
index with the same documents. -/
theorem sound_searchAll {S : Type} [LinearOrderedField S] (ln : S → S) :
    ∀ (queries : List Str) (indexer : Indexer), Sound indexer →
      ∃ indexer2, searchAll ln queries indexer = some indexer2 ∧
        indexer2.documents = indexer.documents ∧ Sound indexer2 := by
  intro queries
  induction queries with
  | nil => intro indexer h; exact ⟨indexer, rfl, rfl, h⟩
  | cons q rest ih =>
    intro indexer h
    obtain ⟨res, ix, hs, hd, hsound⟩ := sound_search ln indexer q h
    obtain ⟨ix2, h1, h2, h3⟩ := ih ix hsound
    refine ⟨ix2, ?_, h2.trans hd, h3⟩
    simp only [searchAll, hs]
    exact h1

/-! ## Soundness of the ingested index -/

theorem docAt_some_range (docs : List Document) (d : Int) (doc : Document)
    (h : docAt docs d = some doc) : 0 ≤ d ∧ d < (docs.length : Nat) := by
  unfold docAt at h
  split_ifs at h with h0
  refine ⟨h0, ?_⟩
  rw [List.get?_eq_getElem?] at h
  obtain ⟨hlt, -⟩ := List.getElem?_eq_some_iff.1 h
  omega

theorem docAt_append_of_some (docs : List Document) (x : Document) (d : Int) (doc : Document)
    (h : docAt docs d = some doc) : docAt (docs ++ [x]) d = some doc := by
  rw [docAt_append_single]
  have hne : d ≠ (docs.length : Nat) := by
    rintro rfl
    rw [docAt_length] at h
    exact Option.noConfusion h
  simp [hne, h]

theorem sound_empty : Sound Indexer.empty := by
  intro e he
  simp [Indexer.empty] at he

/-- What `addDocument` does to the document list for a supported path. -/
theorem addDocument_documents (fs : Str → Option Str) (indexer : Indexer) (f : Str) (id : Int)
    (hf : (getParser f).isSome) :
    ∃ doc, (addDocument fs indexer f id).documents = indexer.documents ++ [doc] ∧
      doc.id = id ∧ doc.filename = f := by
  obtain ⟨p, hp⟩ := Option.isSome_iff_exists.1 hf
  unfold addDocument
  simp only [hp]
  exact ⟨_, rfl, rfl, rfl⟩

/-- Adding a supported file under the next free position keeps the index
sound. -/
theorem sound_addDocument (fs : Str → Option Str) (indexer : Indexer) (f : Str)
    (hf : (getParser f).isSome) (h : Sound indexer) :
    Sound (addDocument fs indexer f (indexer.documents.length : Nat)) := by
  obtain ⟨p, hp⟩ := Option.isSome_iff_exists.1 hf
  obtain ⟨h1, -⟩ := recordWords_spec (indexer.documents.length : Nat)
    (extractWords (p.parse fs f)) (indexer.invertedIndex, 0)
  unfold Sound addDocument
  simp only [hp]
  generalize extractWords (p.parse fs f) = ws at h1 ⊢
  generalize p.parse fs f = content
  -- ids that were good stay good once the new document is appended
  have hold : EntriesOK (fun d => ∃ doc,
      docAt (indexer.documents ++
        [⟨(indexer.documents.length : Nat), f, content,
          (recordWords (indexer.documents.length : Nat) ws
            (indexer.invertedIndex, 0)).2⟩]) d = some doc ∧ doc.id = d ∧ 1 ≤ doc.totalWords)
      indexer.invertedIndex := by
    refine entriesOK_mono _ _ _ h ?_
    rintro d ⟨doc, hdoc, hid, htw⟩
    exact ⟨doc, docAt_append_of_some _ _ d doc hdoc, hid, htw⟩
  cases ws with
  | nil =>
    simp only [recordWords] at hold ⊢
    exact hold
  | cons w rest =>
    refine entriesOK_recordWords _ _ ?_ _ (indexer.invertedIndex, 0) hold
    refine ⟨⟨(indexer.documents.length : Nat), f, content,
      (recordWords (indexer.documents.length : Nat) (w :: rest)
        (indexer.invertedIndex, 0)).2⟩, ?_, rfl, ?_⟩
    · rw [docAt_append_single]; simp
    · simp only [h1, List.length_cons, zero_add]
      push_cast
      omega

theorem sound_ingestFrom (fs : Str → Option Str) :
    ∀ (files : List Str) (i : Nat) (indexer : Indexer), AllSupported files →
      Sound indexer → indexer.documents.length = i →
      Sound (ingestFrom fs i files indexer) ∧
      (ingestFrom fs i files indexer).documents.map Document.id =
        indexer.documents.map Document.id ++ (List.range' i files.length).map (fun k : Nat => (k : Int)) ∧
      (ingestFrom fs i files indexer).documents.map Document.filename =
        indexer.documents.map Document.filename ++ files := by
  intro files
  induction files with
  | nil => intro i indexer _ h _; simpa [ingestFrom] using h
  | cons f rest ih =>
    intro i indexer hs h hl
    subst hl
    have hf : (getParser f).isSome := hs f (by simp)
    have h1 := sound_addDocument fs indexer f hf h
    obtain ⟨doc, hd1, hd2, hd3⟩ :=
      addDocument_documents fs indexer f (indexer.documents.length : Nat) hf
    obtain ⟨h3, h4, h5⟩ := ih (indexer.documents.length + 1) _
      (fun g hg => hs g (List.mem_cons_of_mem _ hg)) h1 (by rw [hd1]; simp)
    simp only [ingestFrom]
    refine ⟨h3, ?_, ?_⟩
    · rw [h4, hd1]
      simp [hd2, List.range'_succ]
    · rw [h5, hd1]
      simp [hd3]

/-- The index `main` builds is sound, its document ids are `0, 1, ..` in
order and its document paths are the scanned list. -/
theorem sound_ingest (fs : Str → Option Str) (files : List Str) (hs : AllSupported files) :
    Sound (ingest fs files) ∧
    (ingest fs files).documents.map Document.id =
      (List.range files.length).map (fun k : Nat => (k : Int)) ∧
    (ingest fs files).documents.map Document.filename = files := by
  have := sound_ingestFrom fs files 0 Indexer.empty hs sound_empty rfl
  simpa [ingest, Indexer.empty, List.range_eq_range'] using this

/-- C14 (document ids match positions). After the ingestion loop of `main`
over `n` paths that `getParser` accepts, the document list has `n` entries,
its ids are `0, .., n-1` in order (so pairwise distinct), its paths are the
listed files in order, and every document id stored in a posting list is a
position `< n` at which `documents[docID]` is the document with that id. -/
theorem C14_ids_match_positions (fs : Str → Option Str) (files : List Str)
    (hs : AllSupported files) :
    (ingest fs files).documents.length = files.length ∧
    (ingest fs files).documents.map Document.id =
      (List.range files.length).map (fun k : Nat => (k : Int)) ∧
    (ingest fs files).documents.map Document.filename = files ∧
    ((ingest fs files).documents.map Document.id).Nodup ∧
    (∀ (i : Nat) (doc : Document), (ingest fs files).documents.get? i = some doc →
      doc.id = (i : Int) ∧ files.get? i = some doc.filename) ∧
    ∀ e ∈ (ingest fs files).invertedIndex, ∀ x ∈ e.2,
      0 ≤ x.1 ∧ x.1 < (files.length : Nat) ∧
      ∃ doc, docAt (ingest fs files).documents x.1 = some doc ∧ doc.id = x.1 := by
  obtain ⟨hsound, hids, hnames⟩ := sound_ingest fs files hs
  obtain ⟨hfresh, hlen⟩ := fresh_ingest fs files hs
  refine ⟨hlen, hids, hnames, ?_, ?_, ?_⟩
  · rw [hids]
    exact (List.nodup_range _).map (fun a b hab => by exact_mod_cast hab)
  · intro i doc hi
    have h1 : ((ingest fs files).documents.map Document.id).get? i = some doc.id := by
      simp [List.get?_eq_getElem?, List.getElem?_map] at hi ⊢
      exact ⟨doc, hi, rfl⟩
    have h2 : ((ingest fs files).documents.map Document.filename).get? i =
        some doc.filename := by
      simp [List.get?_eq_getElem?, List.getElem?_map] at hi ⊢
      exact ⟨doc, hi, rfl⟩
    rw [hnames] at h2
    refine ⟨?_, h2⟩
    have hdoc : docAt (ingest fs files).documents (i : Int) = some doc := by
      unfold docAt
      simpa using hi
    exact hfresh.2.1 _ doc hdoc
  · intro e he x hx
    obtain ⟨doc, hdoc, hid, -⟩ := (hsound e he).2.2 x hx
    obtain ⟨h0, hlt⟩ := docAt_some_range _ _ _ hdoc
    rw [hlen] at hlt
    exact ⟨h0, hlt, doc, hdoc, hid⟩

/-- C15 (no zero denominator in scoring). From the index `main` builds over
supported paths (a file may be empty or unreadable), every run of searches
returns, and in the state it reaches, for every query, every candidate
document is a stored document with `totalWords >= 1` and every query term
found in the index has a posting list of size `df >= 1`. -/
theorem C15_no_zero_denominator {S : Type} [LinearOrderedField S] (ln : S → S)
    (fs : Str → Option Str) (files : List Str) (queries : List Str)
    (hs : AllSupported files) :
    ∃ indexer, searchAll ln queries (ingest fs files) = some indexer ∧
      ∀ query : Str,
        (∀ d ∈ candidateDocs indexer.invertedIndex (queryIsAND query) (queryTerms query),
          ∃ doc, docAt indexer.documents d = some doc ∧ 1 ≤ doc.totalWords) ∧
        (∀ t ∈ queryTerms query, ∀ p, mapFind indexer.invertedIndex t = some p →
          1 ≤ p.length) := by
  obtain ⟨hsound, -, -⟩ := sound_ingest fs files hs
  obtain ⟨indexer, hrun, -, hsound2⟩ := sound_searchAll ln queries _ hsound
  refine ⟨indexer, hrun, ?_⟩
  intro query
  refine ⟨?_, ?_⟩
  · intro d hd
    obtain ⟨doc, hdoc, -, htw⟩ := entriesOK_candidates _ _ hsound2 _ _ d hd
    exact ⟨doc, hdoc, htw⟩
  · intro t _ p hp
    have hne := (hsound2 (t, p) (mapFind_mem t p _ hp)).1
    exact List.length_pos.2 hne

/-! ## Sign of the score -/

/-- A posting list with pairwise distinct ids among the positions `0 .. n-1`
has at most `n` entries. -/
theorem posting_length_le (p : Posting) (n : Nat) (hn : (p.map Prod.fst).Nodup)
    (hr : ∀ x ∈ p, 0 ≤ x.1 ∧ x.1 < (n : Nat)) : p.length ≤ n := by
  have hsub : (p.map Prod.fst).toFinset ⊆ Finset.Ico (0 : Int) (n : Nat) := by
    intro d hd
    rw [List.mem_toFinset] at hd
    obtain ⟨x, hx, rfl⟩ := List.mem_map.1 hd
    exact Finset.mem_Ico.2 (hr x hx)
  have hcard := Finset.card_le_card hsub
  rw [List.toFinset_card_of_nodup hn, Int.card_Ico] at hcard
  simpa using hcard

/-- One summand `count / totalWords * ln (N / df)` is non-negative when
`count >= 0`, `totalWords >= 0` and `1 <= df <= N`. -/
theorem summand_nonneg {S : Type} [LinearOrderedField S] (ln : S → S)
    (hln : ∀ x : S, 1 ≤ x → 0 ≤ ln x) (count tw df : Int) (n : Nat)
    (hc : 0 ≤ count) (ht : 0 ≤ tw) (hd : 0 < df) (hdn : df ≤ (n : Nat)) :
    0 ≤ ((count : S) / (tw : S)) * ln (((n : Nat) : S) / (df : S)) := by
  apply mul_nonneg
  · exact div_nonneg (by exact_mod_cast hc) (by exact_mod_cast ht)
  · apply hln
    have hd2 : (0 : S) < (df : S) := by exact_mod_cast hd
    rw [one_le_div hd2]
    have : ((df : Int) : S) ≤ (((n : Nat) : Int) : S) := by exact_mod_cast hdn
    simpa using this

/-- The score loop keeps a non-negative real accumulator real and
non-negative on a sound index whose recorded counts are non-negative. -/
theorem tfidfLoop_nonneg {S : Type} [LinearOrderedField S] (ln : S → S)
    (hln : ∀ x : S, 1 ≤ x → 0 ≤ ln x) (documents : List Document) (d : Int)
    (hd : ∃ doc, docAt documents d = some doc ∧ doc.id = d ∧ 1 ≤ doc.totalWords) :
    ∀ (ws : List Str) (st st2 : Double S × InvertedIndex),
      EntriesOK (fun d => ∃ doc, docAt documents d = some doc ∧ doc.id = d ∧
        1 ≤ doc.totalWords) st.2 →
      (∀ w, 0 ≤ recordedCount st.2 w d) → (∃ x, st.1 = Double.real x ∧ 0 ≤ x) →
      tfidfLoop ln documents d ws st = some st2 → ∃ x, st2.1 = Double.real x ∧ 0 ≤ x := by
  intro ws
  induction ws with
  | nil =>
    intro st st2 _ _ h0 hs
    simp only [tfidfLoop, Option.some.injEq] at hs
    rw [← hs]; exact h0
  | cons w rest ih =>
    intro st st2 hok hcount h0 hs
    simp only [tfidfLoop] at hs
    cases hp : mapFind st.2 w with
    | none =>
      simp only [hp] at hs
      exact ih st st2 hok hcount h0 hs
    | some p =>
      simp only [hp] at hs
      split_ifs at hs with hdf
      · obtain ⟨doc, hdoc, hid, htw⟩ := hd
        simp only [hdoc] at hs
        refine ih _ st2 (entriesOK_touch _ st.2 w p d hok ⟨doc, hdoc, hid, htw⟩ hp)
          ?_ ?_ hs
        · intro w2
          simp only
          rw [recordedCount_touch st.2 w p d hp]
          exact hcount w2
        · obtain ⟨x, hx, hx0⟩ := h0
          obtain ⟨-, hnod, hgood⟩ := hok (w, p) (mapFind_mem w p _ hp)
          have hlen : p.length ≤ documents.length :=
            posting_length_le p documents.length hnod (fun x hx => by
              obtain ⟨doc2, hdoc2, -, -⟩ := hgood x hx
              exact docAt_some_range documents x.1 doc2 hdoc2)
          have hv : 0 ≤ (postingIndex p d).1 := by
            have := hcount w
            rw [postingIndex_fst]
            simpa [recordedCount, lookupEntry, hp] using this
          have hN : 0 < documents.length := by
            have := (docAt_some_range documents d doc hdoc)
            omega
          refine ⟨_, ?_, add_nonneg hx0
            (summand_nonneg ln hln (postingIndex p d).1 doc.totalWords (p.length : Int)
              documents.length hv (by omega) hdf (by exact_mod_cast hlen))⟩
          simp only [hx]
          rw [tfidfTerm_real ln _ _ _ _ (by omega) hN hdf, double_add_real]
      · exact ih st st2 hok hcount h0 hs

theorem scoreLoop_nonneg {S : Type} [LinearOrderedField S] (ln : S → S)
    (hln : ∀ x : S, 1 ≤ x → 0 ≤ ln x) (documents : List Document) (ws : List Str) :
    ∀ (cand : List Int) (st st2 : List (Result S) × InvertedIndex),
      (∀ d ∈ cand, ∃ doc, docAt documents d = some doc ∧ doc.id = d ∧ 1 ≤ doc.totalWords) →
      EntriesOK (fun d => ∃ doc, docAt documents d = some doc ∧ doc.id = d ∧
        1 ≤ doc.totalWords) st.2 →
      (∀ w d, 0 ≤ recordedCount st.2 w d) →
      (∀ r ∈ st.1, ∃ x, r.tfidf = Double.real x ∧ 0 ≤ x) →
      scoreLoop ln documents ws cand st = some st2 →
      ∀ r ∈ st2.1, ∃ x, r.tfidf = Double.real x ∧ 0 ≤ x := by
  intro cand
  induction cand with
  | nil =>
    intro st st2 _ _ _ h0 hs
    simp only [scoreLoop, Option.some.injEq] at hs
    rw [← hs]; exact h0
  | cons d rest ih =>
    intro st st2 hc hok hcount h0 hs
    simp only [scoreLoop] at hs
    have hgd := hc d (by simp)
    obtain ⟨-, hf2⟩ := freqLoop_spec d ws (0, st.2)
    have hok1 := entriesOK_freqLoop _ d hgd ws (0, st.2) hok
    obtain ⟨doc, hdoc, -, -⟩ := hgd
    obtain ⟨t, ht, ht2⟩ := tfidfLoop_total ln documents d (by simp [hdoc]) ws
      (Double.real 0, (freqLoop d ws (0, st.2)).2)
    simp only [ht] at hs
    have hok2 := entriesOK_tfidfLoop ln documents _ d (hc d (by simp)) ws _ t hok1 ht
    have hcount1 : ∀ w d2, 0 ≤ recordedCount (freqLoop d ws (0, st.2)).2 w d2 := by
      intro w d2; rw [hf2]; exact hcount w d2
    have hpos : ∃ x, t.1 = Double.real x ∧ 0 ≤ x :=
      tfidfLoop_nonneg ln hln documents d (hc d (by simp)) ws _ t hok1
        (fun w => hcount1 w d) ⟨0, rfl, le_refl _⟩ ht
    refine ih _ st2 (fun x hx => hc x (List.mem_cons_of_mem _ hx)) hok2 ?_ ?_ hs
    · intro w d2
      simp only
      rw [ht2]; exact hcount1 w d2
    · intro r hr
      simp only [List.mem_append, List.mem_singleton] at hr
      rcases hr with hr | hr
      · exact h0 r hr
      · rw [hr]; exact hpos

theorem fresh_recordedCount_nonneg (indexer : Indexer) (h : Fresh indexer) (w : Str)
    (d : Int) : 0 ≤ recordedCount indexer.invertedIndex w d := by
  unfold recordedCount
  rw [h.1 w d]
  cases hd : docAt indexer.documents d with
  | none => simp
  | some doc =>
    simp only
    split_ifs with hc
    · simp only [Option.getD_some]; omega
    · simp

/-- C16 (non-negative score). On the index `main` builds from `N` supported
files, every posting list has size `df` with `1 <= df <= N`, and for every
query `search` returns and every returned result has a score that is a real
number `>= 0`, the arithmetic being that of the real numbers with the natural
logarithm. -/
theorem C16_score_nonneg (fs : Str → Option Str) (files : List Str) (query : Str)
    (hs : AllSupported files) :
    (∀ t p, mapFind (ingest fs files).invertedIndex t = some p →
      1 ≤ p.length ∧ p.length ≤ files.length) ∧
    ∃ res indexer2, search Real.log (ingest fs files) query = some (res, indexer2) ∧
      ∀ r ∈ res, ∃ x : ℝ, r.tfidf = Double.real x ∧ 0 ≤ x := by
  obtain ⟨hsound, -, -⟩ := sound_ingest fs files hs
  obtain ⟨hfresh, hlen⟩ := fresh_ingest fs files hs
  refine ⟨?_, ?_⟩
  · intro t p hp
    obtain ⟨hne, hnod, hgood⟩ := hsound (t, p) (mapFind_mem t p _ hp)
    refine ⟨List.length_pos.2 hne, ?_⟩
    rw [← hlen]
    exact posting_length_le p _ hnod (fun x hx => by
      obtain ⟨doc2, hdoc2, -, -⟩ := hgood x hx
      exact docAt_some_range _ x.1 doc2 hdoc2)
  · obtain ⟨rows, inv2, hsearch, -, -, -⟩ :=
      search_spec Real.log (ingest fs files) query
        (inBounds_candidates _ (sound_inBounds _ hsound) _ _)
    refine ⟨_, _, hsearch, ?_⟩
    have hu := search_unfold Real.log (ingest fs files) query
    rw [hsearch] at hu
    cases hl : scoreLoop Real.log (ingest fs files).documents (queryTerms query)
        (candidateDocs (ingest fs files).invertedIndex (queryIsAND query) (queryTerms query))
        ([], (ingest fs files).invertedIndex) with
    | none => simp [hl] at hu
    | some st =>
      simp only [hl, Option.map_some', Option.some.injEq, Prod.mk.injEq] at hu
      have hnn := scoreLoop_nonneg Real.log (fun x hx => Real.log_nonneg hx) _ _ _
        ([], (ingest fs files).invertedIndex) st
        (entriesOK_candidates _ _ hsound _ _) hsound
        (fun w d => fresh_recordedCount_nonneg _ hfresh w d) (by simp) hl
      intro r hr
      rw [hu.1, mem_stdSort] at hr
      exact hnn r hr

/-! ## The term-count invariant -/

theorem entryCountSum_insertNew (less : Str → Str → Bool) (w : Str) (p0 : Posting) (d : Int) :
    ∀ inv : InvertedIndex,
      entryCountSum (mapInsertNew less w p0 inv) d =
        entryCountSum inv d + (mapFind p0 d).getD 0 := by
  intro inv
  induction inv with
  | nil => simp [entryCountSum, mapInsertNew]
  | cons a rest ih =>
    obtain ⟨k1, v1⟩ := a
    simp only [mapInsertNew]
    split_ifs
    · simp only [entryCountSum, List.map_cons, List.sum_cons]; ring
    · simp only [entryCountSum, List.map_cons, List.sum_cons] at ih ⊢
      rw [ih]; ring

theorem entryCountSum_assign (w : Str) (p p2 : Posting) (d : Int) :
    ∀ inv : InvertedIndex, mapFind inv w = some p →
      entryCountSum (mapAssign w p2 inv) d =
        entryCountSum inv d - (mapFind p d).getD 0 + (mapFind p2 d).getD 0 := by
  intro inv
  induction inv with
  | nil => intro h; simp [mapFind] at h
  | cons a rest ih =>
    obtain ⟨k1, v1⟩ := a
    intro h
    by_cases hk : k1 = w
    · simp only [mapFind, hk, if_true, Option.some.injEq] at h
      subst h
      simp only [mapAssign, hk, if_true, entryCountSum, List.map_cons, List.sum_cons]
      ring
    · simp only [mapFind, hk, if_false] at h
      simp only [mapAssign, hk, if_false, entryCountSum, List.map_cons, List.sum_cons]
      have := ih h
      simp only [entryCountSum] at this
      rw [this]; ring

/-- The count that the incremented posting list stores for `d`. -/
theorem bumped_count (p : Posting) (id d : Int) :
    (mapFind (mapAssign id ((postingIndex p id).1 + 1) (postingIndex p id).2) d).getD 0 =
      (mapFind p d).getD 0 + if d = id then 1 else 0 := by
  by_cases hd : d = id
  · subst hd
    rw [mapFind_assign_self d _ _ (postingIndex_snd_has p d), postingIndex_fst]
    simp
  · rw [mapFind_assign_ne id d _ hd, mapFind_postingIndex_snd]
    simp [hd]

theorem entryCountSum_recordWord (inv : InvertedIndex) (w : Str) (id d : Int) :
    entryCountSum (recordWord inv w id) d = entryCountSum inv d + if d = id then 1 else 0 := by
  rcases recordWord_cases inv w id with ⟨p, hp, heq⟩ | ⟨-, heq⟩
  · rw [heq, entryCountSum_assign w p _ d inv hp, bumped_count]
    ring
  · rw [heq, entryCountSum_insertNew, bumped_count]
    simp [mapFind]

theorem keys_recordWord_nodup (inv : InvertedIndex) (w : Str) (id : Int)
    (h : (inv.map Prod.fst).Nodup) : ((recordWord inv w id).map Prod.fst).Nodup := by
  rcases recordWord_cases inv w id with ⟨p, -, heq⟩ | ⟨hnone, heq⟩
  · rw [heq, keys_mapAssign]; exact h
  · rw [heq, (keys_mapInsertNew_perm strLess w _ inv).nodup_iff]
    exact List.nodup_cons.2 ⟨(mapFind_eq_none_iff w inv).1 hnone, h⟩

theorem recordWords_counts (id d : Int) :
    ∀ (ws : List Str) (st : InvertedIndex × Int), (st.1.map Prod.fst).Nodup →
      ((recordWords id ws st).1.map Prod.fst).Nodup ∧
      entryCountSum (recordWords id ws st).1 d =
        entryCountSum st.1 d + if d = id then ((ws.length : Nat) : Int) else 0 := by
  intro ws
  induction ws with
  | nil => intro st h; simp [recordWords, h]
  | cons w rest ih =>
    intro st h
    obtain ⟨h1, h2⟩ := ih (recordWord st.1 w id, st.2 + 1) (keys_recordWord_nodup st.1 w id h)
    simp only [recordWords]
    refine ⟨h1, ?_⟩
    rw [h2]
    simp only [entryCountSum_recordWord, List.length_cons]
    split_ifs
    · push_cast; ring
    · ring

/-- On a map with pairwise distinct keys, summing the recorded counts over
the terms is summing over the entries. -/
theorem termCountSum_eq (inv : InvertedIndex) (h : (inv.map Prod.fst).Nodup) (d : Int) :
    termCountSum inv d = entryCountSum inv d := by
  unfold termCountSum entryCountSum
  congr 1
  apply List.map_congr_left
  intro e he
  have := mapFind_of_mem_nodup e.1 e.2 inv h he
  simp [recordedCount, lookupEntry, this]

/-- One `addDocument` call under an id not used before keeps: the terms of the
index are pairwise distinct, every stored document carries a used id and its
`totalWords` is the sum of its counts, and an unused id has no counts. -/
theorem addDocument_counts (fs : Str → Option Str) (indexer : Indexer) (f : Str) (id : Int)
    (used : List Int) (hid : id ∉ used)
    (h : (indexer.invertedIndex.map Prod.fst).Nodup ∧
      (∀ doc ∈ indexer.documents, doc.id ∈ used ∧
        doc.totalWords = entryCountSum indexer.invertedIndex doc.id) ∧
      ∀ d, d ∉ used → entryCountSum indexer.invertedIndex d = 0) :
    ((addDocument fs indexer f id).invertedIndex.map Prod.fst).Nodup ∧
    (∀ doc ∈ (addDocument fs indexer f id).documents, doc.id ∈ id :: used ∧
      doc.totalWords = entryCountSum (addDocument fs indexer f id).invertedIndex doc.id) ∧
    ∀ d, d ∉ id :: used → entryCountSum (addDocument fs indexer f id).invertedIndex d = 0 := by
  obtain ⟨hk, hdocs, hzero⟩ := h
  cases hp : getParser f with
  | none =>
    simp only [addDocument, hp]
    refine ⟨hk, ?_, ?_⟩
    · intro doc hdoc
      exact ⟨List.mem_cons_of_mem _ (hdocs doc hdoc).1, (hdocs doc hdoc).2⟩
    · intro d hd
      exact hzero d (fun hmem => hd (List.mem_cons_of_mem _ hmem))
  | some p =>
    obtain ⟨htot, -⟩ := recordWords_spec id (extractWords (p.parse fs f))
      (indexer.invertedIndex, 0)
    have hcount := fun d => recordWords_counts id d (extractWords (p.parse fs f))
      (indexer.invertedIndex, 0) hk
    simp only [addDocument, hp]
    refine ⟨(hcount 0).1, ?_, ?_⟩
    · intro doc hdoc
      rcases List.mem_append.1 hdoc with hdoc | hdoc
      · obtain ⟨h1, h2⟩ := hdocs doc hdoc
        have hne : doc.id ≠ id := fun he => hid (he ▸ h1)
        refine ⟨List.mem_cons_of_mem _ h1, ?_⟩
        rw [(hcount doc.id).2]
        simp [hne, h2]
      · simp only [List.mem_singleton] at hdoc
        subst hdoc
        refine ⟨by simp, ?_⟩
        simp only
        rw [(hcount id).2, htot, hzero id hid]
        simp
    · intro d hd
      simp only [List.mem_cons, not_or] at hd
      rw [(hcount d).2]
      simp [hd.1, hzero d hd.2]

theorem runAdds_counts :
    ∀ (calls : List AddCall) (indexer : Indexer) (used : List Int),
      (calls.map AddCall.id).Nodup → (∀ c ∈ calls, c.id ∉ used) →
      ((indexer.invertedIndex.map Prod.fst).Nodup ∧
        (∀ doc ∈ indexer.documents, doc.id ∈ used ∧
          doc.totalWords = entryCountSum indexer.invertedIndex doc.id) ∧
        ∀ d, d ∉ used → entryCountSum indexer.invertedIndex d = 0) →
      ((runAdds calls indexer).invertedIndex.map Prod.fst).Nodup ∧
      ∀ doc ∈ (runAdds calls indexer).documents,
        doc.totalWords = entryCountSum (runAdds calls indexer).invertedIndex doc.id := by
  intro calls
  induction calls with
  | nil =>
    intro indexer used _ _ h
    exact ⟨h.1, fun doc hdoc => (h.2.1 doc hdoc).2⟩
  | cons c rest ih =>
    intro indexer used hn hu h
    simp only [List.map_cons, List.nodup_cons] at hn
    simp only [runAdds]
    refine ih _ (c.id :: used) hn.2 ?_
      (addDocument_counts c.fs indexer c.filepath c.id used (hu c (by simp)) h)
    intro c2 hc2 hmem
    rcases List.mem_cons.1 hmem with h1 | h1
    · exact hn.1 (h1 ▸ List.mem_map_of_mem AddCall.id hc2)
    · exact hu c2 (List.mem_cons_of_mem _ hc2) h1

/-- C11 (term-count invariant). In every state reached from the empty
Indexer by `addDocument` calls with pairwise distinct ids, every stored
document has `totalWords` equal to the sum, over all terms of the inverted
index, of the count recorded for the term and the document's id (`0` where
there is no entry). -/
theorem C11_term_count (calls : List AddCall) (hd : (calls.map AddCall.id).Nodup) :
    ∀ doc ∈ (runAdds calls Indexer.empty).documents,
      doc.totalWords = termCountSum (runAdds calls Indexer.empty).invertedIndex doc.id := by
  obtain ⟨hk, hdocs⟩ := runAdds_counts calls Indexer.empty [] hd (by simp)
    ⟨by simp [Indexer.empty], by simp [Indexer.empty], by simp [Indexer.empty, entryCountSum]⟩
  intro doc hdoc
  rw [termCountSum_eq _ hk]
  exact hdocs doc hdoc

/-- Witness of C11: the scenario corpus added under the ids 7 and 3. -/
theorem C11_term_count_witness :
    ([⟨demoFs, "d0.txt".toList, 7⟩, ⟨demoFs, "d1.txt".toList, 3⟩].map AddCall.id).Nodup ∧
    (runAdds [⟨demoFs, "d0.txt".toList, 7⟩, ⟨demoFs, "d1.txt".toList, 3⟩]
      Indexer.empty).documents.map (fun doc => (doc.id, doc.totalWords)) = [(7, 3), (3, 4)] ∧
    ∀ doc ∈ (runAdds [⟨demoFs, "d0.txt".toList, 7⟩, ⟨demoFs, "d1.txt".toList, 3⟩]
        Indexer.empty).documents,
      doc.totalWords =
        termCountSum (runAdds [⟨demoFs, "d0.txt".toList, 7⟩, ⟨demoFs, "d1.txt".toList, 3⟩]
          Indexer.empty).invertedIndex doc.id :=
  ⟨by decide, by decide,
    C11_term_count [⟨demoFs, "d0.txt".toList, 7⟩, ⟨demoFs, "d1.txt".toList, 3⟩] (by decide)⟩

/-- C12 (posting-list invariant), evaluated at a failing input. The scenario
index is reached from the empty Indexer by two `addDocument` calls with
distinct ids; after the search "quick slow" the posting list of "quick"
holds the zero-count entry `(1, 0)` and has size `2`, whereas "quick" occurs
in one document only. -/
theorem C12_zero_entry_after_search :
    demoIndex = runAdds [⟨demoFs, "d0.txt".toList, 0⟩, ⟨demoFs, "d1.txt".toList, 1⟩]
      Indexer.empty ∧
    ∃ res indexer2, search Real.log demoIndex "quick slow".toList = some (res, indexer2) ∧
      (∃ p, mapFind indexer2.invertedIndex "quick".toList = some p ∧ (1, 0) ∈ p ∧
        p.length = 2) ∧
      documentFrequency indexer2.documents "quick".toList = 1 := by
  refine ⟨by decide, _, _, search_quick_slow Real.log, ⟨[(0, 1), (1, 0)], ?_, ?_, ?_⟩, ?_⟩ <;>
    decide

/-! ## Witnesses on the scenario corpus -/

/-- Witness of C14 on the scenario corpus. -/
theorem C14_ids_match_positions_witness :
    AllSupported demoFiles ∧
    (ingest demoFs demoFiles).documents.map Document.id = [0, 1] ∧
    (ingest demoFs demoFiles).documents.map Document.filename = demoFiles ∧
    ∀ e ∈ (ingest demoFs demoFiles).invertedIndex, ∀ x ∈ e.2,
      0 ≤ x.1 ∧ x.1 < (demoFiles.length : Nat) ∧
      ∃ doc, docAt (ingest demoFs demoFiles).documents x.1 = some doc ∧ doc.id = x.1 :=
  ⟨by decide, by decide, (C14_ids_match_positions demoFs demoFiles (by decide)).2.2.1,
    (C14_ids_match_positions demoFs demoFiles (by decide)).2.2.2.2.2⟩

/-- Witness of C15: the scenario corpus together with a file that cannot be
opened (stored with empty content and `totalWords = 0`), after the searches
"quick slow" and "the". -/
theorem C15_no_zero_denominator_witness :
    AllSupported ["d0.txt".toList, "missing.txt".toList, "d1.txt".toList] ∧
    ∃ indexer,
      searchAll Real.log ["quick slow".toList, "the".toList]
        (ingest demoFs ["d0.txt".toList, "missing.txt".toList, "d1.txt".toList]) =
          some indexer ∧
      ∀ query : Str,
        (∀ d ∈ candidateDocs indexer.invertedIndex (queryIsAND query) (queryTerms query),
          ∃ doc, docAt indexer.documents d = some doc ∧ 1 ≤ doc.totalWords) ∧
        (∀ t ∈ queryTerms query, ∀ p, mapFind indexer.invertedIndex t = some p →
          1 ≤ p.length) :=
  ⟨by decide,
    C15_no_zero_denominator Real.log demoFs
      ["d0.txt".toList, "missing.txt".toList, "d1.txt".toList]
      ["quick slow".toList, "the".toList] (by decide)⟩

/-- Witness of C16 on the scenario corpus, query "quick slow". -/
theorem C16_score_nonneg_witness :
    AllSupported demoFiles ∧
    ∃ res indexer2,
      search Real.log (ingest demoFs demoFiles) "quick slow".toList = some (res, indexer2) ∧
      ∀ r ∈ res, ∃ x : ℝ, r.tfidf = Double.real x ∧ 0 ≤ x :=
  ⟨by decide, (C16_score_nonneg demoFs demoFiles "quick slow".toList (by decide)).2⟩

/-! ## Ranking -/

/-- The score loop keeps the accumulator a real number when the document at
`docID` has `totalWords` different from zero. -/
theorem tfidfLoop_real {S : Type} [LinearOrderedField S] (ln : S → S)
    (documents : List Document) (d : Int)
    (hd : ∀ doc, docAt documents d = some doc → doc.totalWords ≠ 0) :
    ∀ (ws : List Str) (st st2 : Double S × InvertedIndex),
      (∃ x, st.1 = Double.real x) →
      tfidfLoop ln documents d ws st = some st2 → ∃ x, st2.1 = Double.real x := by
  intro ws
  induction ws with
  | nil =>
    intro st st2 h0 hs
    simp only [tfidfLoop, Option.some.injEq] at hs
    rw [← hs]; exact h0
  | cons w rest ih =>
    intro st st2 h0 hs
    simp only [tfidfLoop] at hs
    cases hp : mapFind st.2 w with
    | none =>
      simp only [hp] at hs
      exact ih st st2 h0 hs
    | some p =>
      simp only [hp] at hs
      split_ifs at hs with hdf
      · cases hdoc : docAt documents d with
        | none => simp [hdoc] at hs
        | some doc =>
          simp only [hdoc] at hs
          refine ih _ st2 ?_ hs
          obtain ⟨x, hx⟩ := h0
          have hN : 0 < documents.length := by
            have := docAt_some_range documents d doc hdoc
            omega
          have hstep : Double.add st.1
              (tfidfTerm ln (postingIndex p d).1 doc.totalWords documents.length
                (p.length : Int)) =
              Double.real (x + (((postingIndex p d).1 : S) / (doc.totalWords : S)) *
                ln (((documents.length : Nat) : S) / ((p.length : Int) : S))) := by
            rw [hx, tfidfTerm_real ln _ _ _ _ (hd doc hdoc) hN hdf, double_add_real]
          exact ⟨_, hstep⟩
      · exact ih st st2 h0 hs

theorem scoreLoop_real {S : Type} [LinearOrderedField S] (ln : S → S)
    (documents : List Document) (ws : List Str) :
    ∀ (cand : List Int) (st st2 : List (Result S) × InvertedIndex),
      (∀ d ∈ cand, ∀ doc, docAt documents d = some doc → doc.totalWords ≠ 0) →
      (∀ r ∈ st.1, ∃ x, r.tfidf = Double.real x) →
      scoreLoop ln documents ws cand st = some st2 →
      ∀ r ∈ st2.1, ∃ x, r.tfidf = Double.real x := by
  intro cand
  induction cand with
  | nil =>
    intro st st2 _ h0 hs
    simp only [scoreLoop, Option.some.injEq] at hs
    rw [← hs]; exact h0
  | cons d rest ih =>
    intro st st2 hc h0 hs
    simp only [scoreLoop] at hs
    cases ht : tfidfLoop ln documents d ws (Double.real 0, (freqLoop d ws (0, st.2)).2) with
    | none => simp [ht] at hs
    | some t =>
      simp only [ht] at hs
      have hreal := tfidfLoop_real ln documents d (hc d (by simp)) ws _ t ⟨0, rfl⟩ ht
      refine ih _ st2 (fun x hx => hc x (List.mem_cons_of_mem _ hx)) ?_ hs
      intro r hr
      simp only [List.mem_append, List.mem_singleton] at hr
      rcases hr with hr | hr
      · exact h0 r hr
      · rw [hr]; exact hreal

/-- C5 (ranking, amended). For every index state and every query: whenever
`search` returns, the docIDs of the returned list are a duplicate-free
rearrangement of the candidate set (one result per candidate, nothing else,
nothing dropped); if moreover no candidate's `documents[docID]` has
`totalWords = 0`, every score is a real number and the scores are
non-increasing along the list; and `search` does return when the ids stored
in the posting lists are valid positions of the document vector. -/
theorem C5_ranking {S : Type} [LinearOrderedField S] (ln : S → S) (indexer : Indexer)
    (query : Str) :
    (∀ res indexer2, search ln indexer query = some (res, indexer2) →
      (res.map Result.docID).Perm
        (candidateDocs indexer.invertedIndex (queryIsAND query) (queryTerms query)) ∧
      (res.map Result.docID).Nodup ∧
      res.length =
        (candidateDocs indexer.invertedIndex (queryIsAND query) (queryTerms query)).length ∧
      ((∀ d ∈ candidateDocs indexer.invertedIndex (queryIsAND query) (queryTerms query),
          ∀ doc, docAt indexer.documents d = some doc → doc.totalWords ≠ 0) →
        (∀ r ∈ res, ∃ x, r.tfidf = Double.real x) ∧
        res.Pairwise (fun a b => Double.ge a.tfidf b.tfidf = true))) ∧
    (InBounds indexer → ∃ res indexer2, search ln indexer query = some (res, indexer2)) := by
  refine ⟨?_, ?_⟩
  · intro res indexer2 hs
    obtain ⟨hperm, st, hst, hres⟩ := search_returned ln indexer query res indexer2 hs
    refine ⟨hperm, hperm.nodup_iff.2 (nodup_candidateDocs _ _ _), ?_, ?_⟩
    · have := hperm.length_eq
      simpa using this
    · intro htw
      have hreal := scoreLoop_real ln _ _ _ ([], indexer.invertedIndex) st htw (by simp) hst
      rw [hres]
      refine ⟨?_, sorted_stdSort st.1 hreal⟩
      intro r hr
      exact hreal r ((mem_stdSort _ _ r).1 hr)
  · intro hb
    obtain ⟨rows, inv2, hs, -, -, -⟩ :=
      search_spec ln indexer query (inBounds_candidates indexer hb _ _)
    exact ⟨_, _, hs⟩

/-- Witness of C5 (amended) on the scenario index, query "quick slow": two
results, documents 0 and 1, with real scores in non-increasing order. -/
theorem C5_ranking_witness :
    InBounds demoIndex ∧
    ∃ res indexer2, search Real.log demoIndex "quick slow".toList = some (res, indexer2) ∧
      (res.map Result.docID).Perm [0, 1] ∧ (res.map Result.docID).Nodup ∧
      (∀ r ∈ res, ∃ x, r.tfidf = Double.real x) ∧
      res.Pairwise (fun a b => Double.ge a.tfidf b.tfidf = true) := by
  refine ⟨by decide, ?_⟩
  have h := C5_ranking Real.log demoIndex "quick slow".toList
  obtain ⟨res, indexer2, hs⟩ := h.2 (by decide)
  obtain ⟨h2, h3, -, h5⟩ := h.1 res indexer2 hs
  have hc : candidateDocs demoIndex.invertedIndex (queryIsAND "quick slow".toList)
      (queryTerms "quick slow".toList) = [0, 1] := by decide
  have hd0 : docAt demoIndex.documents 0 =
      some ⟨0, "d0.txt".toList, "the quick fox ".toList, 3⟩ := by decide
  have hd1 : docAt demoIndex.documents 1 =
      some ⟨1, "d1.txt".toList, "the slow fox fox ".toList, 4⟩ := by decide
  rw [hc] at h2 h5
  have h6 := h5 (by
    intro d hd doc hdoc
    simp only [List.mem_cons, List.mem_singleton, List.not_mem_nil, or_false] at hd
    rcases hd with rfl | rfl
    · rw [hd0] at hdoc
      injection hdoc with hdoc
      rw [← hdoc]; decide
    · rw [hd1] at hdoc
      injection hdoc with hdoc
      rw [← hdoc]; decide)
  exact ⟨res, indexer2, hs, h2, h3, h6.1, h6.2⟩

theorem rows_shifted {S : Type} [LinearOrderedField S] (ln : S → S) :
    ∃ inv2, scoreLoop ln shiftedIndex.documents ["quick".toList, "slow".toList] [0, 2]
        ([], shiftedIndex.invertedIndex) =
      some ([⟨0, 1, Double.add (Double.add (Double.real 0) (tfidfTerm ln 1 0 3 1))
                  (tfidfTerm ln 0 0 3 2)⟩,
             ⟨2, 1, Double.add (Double.add (Double.real 0) (tfidfTerm ln 0 4 3 2))
                  (tfidfTerm ln 1 4 3 2)⟩], inv2) :=
  ⟨_, rfl⟩

theorem double_add_nan {S : Type} [LinearOrderedField S] (a : Double S) :
    Double.add a Double.nan = Double.nan := by
  cases a <;> rfl

theorem double_ge_nan {S : Type} [LinearOrderedField S] (a : Double S) :
    Double.ge a Double.nan = false := by
  cases a <;> rfl

theorem tfidfTerm_zero_zero {S : Type} [LinearOrderedField S] (ln : S → S) (n : Nat)
    (df : Int) : tfidfTerm ln 0 0 n df = Double.nan := by
  simp [tfidfTerm, Double.ofInt, Double.div, Double.mul]

/-- C5 as stated fails. The index `shiftedIndex` is reached by `addDocument`
calls with distinct ids and all its posting ids are valid positions, but
position 0 holds the document of an unreadable file, with `totalWords = 0`.
The query "quick slow" has the candidates 0 and 2; for candidate 0 the score
is `1/0 * ln 3 + 0/0 * ln (3/2)`, which is NaN, and neither the returned list
nor any rearrangement of it is non-increasing. -/
theorem C5_counterexample :
    InBounds shiftedIndex ∧
    shiftedIndex.documents.map (fun doc => (doc.id, doc.totalWords)) =
      [(1, 0), (0, 3), (2, 4)] ∧
    ∃ res indexer2, search Real.log shiftedIndex "quick slow".toList = some (res, indexer2) ∧
      res.map Result.docID = [0, 2] ∧
      (∃ r ∈ res, r.docID = 0 ∧ r.tfidf = Double.nan) ∧
      ¬ res.Pairwise (fun a b => Double.ge a.tfidf b.tfidf = true) ∧
      ∀ l : List (Result ℝ), l.Perm res →
        ¬ l.Pairwise (fun a b => Double.ge a.tfidf b.tfidf = true) := by
  refine ⟨by decide, by decide, ?_⟩
  obtain ⟨inv2, hrows⟩ := rows_shifted Real.log
  have hq : queryTerms "quick slow".toList = ["quick".toList, "slow".toList] := by decide
  have hA : queryIsAND "quick slow".toList = false := by decide
  have hc : candidateDocs shiftedIndex.invertedIndex false
      ["quick".toList, "slow".toList] = [0, 2] := by decide
  have h0 : Double.add (Double.add (Double.real 0) (tfidfTerm Real.log 1 0 3 1))
      (tfidfTerm Real.log 0 0 3 2) = Double.nan := by
    rw [tfidfTerm_zero_zero, double_add_nan]
  obtain ⟨x, h2⟩ : ∃ x : ℝ, Double.add (Double.add (Double.real 0) (tfidfTerm Real.log 0 4 3 2))
      (tfidfTerm Real.log 1 4 3 2) = Double.real x := by
    rw [tfidfTerm_real Real.log 0 4 3 2 (by decide) (by decide) (by decide),
      tfidfTerm_real Real.log 1 4 3 2 (by decide) (by decide) (by decide)]
    exact ⟨_, rfl⟩
  have hsearch := search_unfold Real.log shiftedIndex "quick slow".toList
  rw [hq, hA, hc, hrows, h0, h2] at hsearch
  simp only [Option.map_some', stdSort, sortInsert, Double.gt, Bool.false_eq_true,
    if_false] at hsearch
  refine ⟨_, _, hsearch, by simp, ⟨_, List.mem_cons_self _ _, rfl, rfl⟩, ?_, ?_⟩
  · simp [Double.ge]
  · intro l hl hp
    have hlen := hl.length_eq
    match l, hlen with
    | [a, b], _ =>
      have hab : Double.ge a.tfidf b.tfidf = true := by simpa using hp
      have hmem : (⟨0, 1, Double.nan⟩ : Result ℝ) ∈ [a, b] := hl.mem_iff.2 (by simp)
      simp only [List.mem_cons, List.mem_singleton, List.not_mem_nil, or_false] at hmem
      rcases hmem with h | h
      · rw [← h] at hab
        simp [Double.ge] at hab
      · rw [← h, double_ge_nan] at hab
        exact Bool.false_ne_true hab

end CodeSearch
